import Mathlib

set_option maxRecDepth 100000

/-!
Verification of the OPC package library (qmuntal/opc).

The Go sources are shallowly embedded: Go strings are modelled as `List Char`
(`GoStr`); the embedding is byte-faithful for ASCII data, which covers all the
inputs exercised here.  Pure Go functions become Lean functions; the mutable
`Writer`/`Reader` objects become explicit state passing.  Functions from the Go
standard library (`strings`, `path`, `mime`, `net/url`) are modelled from their
documented behaviour; functions of the repository itself are translated from
the source files, keeping their names.
-/

namespace Opc

abbrev GoStr := List Char

def gs (s : String) : GoStr := s.toList

/-! ### Models of Go `strings` primitives (standard library) -/

/-- Model of `strings.HasPrefix`. -/
def goStartsWith (s pre : GoStr) : Bool := pre.isPrefixOf s

/-- Model of `strings.HasSuffix`. -/
def goEndsWith (s suf : GoStr) : Bool := suf.reverse.isPrefixOf s.reverse

/-- Model of `strings.Contains` (substring search). -/
def goContains (s sub : GoStr) : Bool :=
  match s with
  | [] => sub.isEmpty
  | _ :: rest => sub.isPrefixOf s || goContains rest sub

/-- Go byte-wise ASCII whitespace test used by `strings.TrimSpace`
(`unicode.IsSpace` restricted to ASCII). -/
def goIsSpace (c : Char) : Bool :=
  c = ' ' || c = '\t' || c = '\n' || c = '\r' || c = '\x0b' || c = '\x0c'

/-- Model of `strings.TrimSpace`. -/
def goTrimSpace (s : GoStr) : GoStr :=
  ((s.dropWhile goIsSpace).reverse.dropWhile goIsSpace).reverse

/-- Model of `strings.TrimSuffix` (removes at most one copy of the suffix). -/
def goTrimSuffix (s suf : GoStr) : GoStr :=
  if goEndsWith s suf then s.take (s.length - suf.length) else s

/-- Model of `strings.TrimPrefix` (removes at most one copy). -/
def goTrimPfxOf (s pre : GoStr) : GoStr :=
  if pre.isPrefixOf s then s.drop pre.length else s

/-- ASCII upper-casing of one character (model of `unicode.ToUpper` on ASCII). -/
def goUpperChar (c : Char) : Char :=
  if 'a' ≤ c ∧ c ≤ 'z' then Char.ofNat (c.toNat - 32) else c

/-- ASCII lower-casing of one character. -/
def goLowerChar (c : Char) : Char :=
  if 'A' ≤ c ∧ c ≤ 'Z' then Char.ofNat (c.toNat + 32) else c

/-- Model of `strings.ToUpper` (ASCII fragment). -/
def goToUpper (s : GoStr) : GoStr := s.map goUpperChar

/-- Model of `strings.ToLower` (ASCII fragment). -/
def goToLower (s : GoStr) : GoStr := s.map goLowerChar

/-- Model of `strings.EqualFold` (ASCII case folding; Go additionally folds a
handful of non-ASCII code points, which never occur in the data treated here). -/
def goEqualFold (a b : GoStr) : Bool := goToLower a == goToLower b

/-- Model of the specific `strings.NewReplacer("\\", "/", "//", "/")` used by
`NormalizePartName`: a single left-to-right pass, first match wins. -/
def goReplacer2 : GoStr → GoStr
  | [] => []
  | [c] => if c = '\\' then ['/'] else [c]
  | c :: c2 :: rest =>
    if c = '\\' then '/' :: goReplacer2 (c2 :: rest)
    else if c = '/' ∧ c2 = '/' then '/' :: goReplacer2 rest
    else c :: goReplacer2 (c2 :: rest)

/-- Model of `strings.Split` with a one-character separator. -/
def goSplitChar (sep : Char) (s : GoStr) : List GoStr :=
  match s with
  | [] => [[]]
  | c :: rest =>
    if c = sep then [] :: goSplitChar sep rest
    else match goSplitChar sep rest with
      | [] => [[c]]
      | t :: ts => (c :: t) :: ts

/-- Model of `strings.Join` with a one-character separator. -/
def goJoinChar (sep : Char) : List GoStr → GoStr
  | [] => []
  | [t] => t
  | t :: ts => t ++ sep :: goJoinChar sep ts

/-- Byte-wise (here: character-wise) lexicographic comparison backing
`sort.Strings`. -/
def strLe (a b : GoStr) : Bool :=
  match a, b with
  | [], _ => true
  | _ :: _, [] => false
  | x :: xs, y :: ys => x.toNat < y.toNat || (x = y && strLe xs ys)

/-! ### Embedding of `part.go` -/

def upperhex : GoStr := gs "0123456789ABCDEF"

def ishex (c : Char) : Bool :=
  ('0' ≤ c ∧ c ≤ '9') || ('a' ≤ c ∧ c ≤ 'f') || ('A' ≤ c ∧ c ≤ 'F')

def unhex (c : Char) : Nat :=
  if '0' ≤ c ∧ c ≤ '9' then c.toNat - '0'.toNat
  else if 'a' ≤ c ∧ c ≤ 'f' then c.toNat - 'a'.toNat + 10
  else if 'A' ≤ c ∧ c ≤ 'F' then c.toNat - 'A'.toNat + 10
  else 0

def isAlpha (c : Char) : Bool := ('a' ≤ c ∧ c ≤ 'z') || ('A' ≤ c ∧ c ≤ 'Z')

def isDigit (c : Char) : Bool := '0' ≤ c ∧ c ≤ '9'

def isUnreserved (c : Char) : Bool :=
  isAlpha c || isDigit c || c = '-' || c = '.' || c = '_' || c = '~'

def isReserved (c : Char) : Bool :=
  if c = '/' || c = ':' || c = '@' then true
  else if c = '!' || c = '$' || c = '&' || c = '\'' || c = '(' || c = ')' ||
      c = '*' || c = '+' || c = ',' || c = ';' || c = '=' then true
  else false

def shouldEscape (c : Char) : Bool := !isUnreserved c && !isReserved c

def unpct (c1 c2 : Char) : Char := Char.ofNat (unhex c1 * 16 + unhex c2)

/-- Embedding of `validEncoded` from part.go.  The UCS-char acceptance of
IRI characters is modelled at the rune level. -/
def isUcsChar (r : Nat) : Bool :=
  (0xA0 ≤ r ∧ r ≤ 0xD7FF) || (0xF900 ≤ r ∧ r ≤ 0xFDCF) || (0xFDF0 ≤ r ∧ r ≤ 0xFFEF) ||
  (0x10000 ≤ r ∧ r ≤ 0x1FFFD) || (0x20000 ≤ r ∧ r ≤ 0x2FFFD) || (0x30000 ≤ r ∧ r ≤ 0x3FFFD) ||
  (0x40000 ≤ r ∧ r ≤ 0x4FFFD) || (0x50000 ≤ r ∧ r ≤ 0x5FFFD) || (0x60000 ≤ r ∧ r ≤ 0x6FFFD) ||
  (0x70000 ≤ r ∧ r ≤ 0x7FFFD) || (0x80000 ≤ r ∧ r ≤ 0x8FFFD) || (0x90000 ≤ r ∧ r ≤ 0x9FFFD) ||
  (0xA0000 ≤ r ∧ r ≤ 0xAFFFD) || (0xB0000 ≤ r ∧ r ≤ 0xBFFFD) || (0xC0000 ≤ r ∧ r ≤ 0xCFFFD) ||
  (0xD0000 ≤ r ∧ r ≤ 0xDFFFD) || (0xE1000 ≤ r ∧ r ≤ 0xEFFFD)

def validEncoded : GoStr → Bool
  | [] => true
  | '%' :: c1 :: c2 :: rest =>
    if isUnreserved (unpct c1 c2) then false else validEncoded (c1 :: c2 :: rest)
  | '%' :: rest => validEncoded rest
  | c :: rest =>
    if shouldEscape c then (if isUcsChar c.toNat then validEncoded rest else false)
    else validEncoded rest

/-- Embedding of `unescape` from part.go: decodes every valid `%HH` whose
byte is neither `%` nor reserved; keeps the rest (a kept or malformed `%`
advances by one byte, as in the Go loop). -/
def unescape : GoStr → GoStr
  | [] => []
  | [c] => [c]
  | [c, c1] => [c, c1]
  | c :: c1 :: c2 :: rest =>
    if c = '%' then
      if ishex c1 && ishex c2 then
        if unpct c1 c2 = '%' || isReserved (unpct c1 c2) then '%' :: unescape (c1 :: c2 :: rest)
        else unpct c1 c2 :: unescape rest
      else '%' :: unescape (c1 :: c2 :: rest)
    else c :: unescape (c1 :: c2 :: rest)

/-- Whether the byte at the head contributes to the count pass of `escape`
from part.go: a `%` not followed by two hex digits, or a character needing
escaping. -/
def pctInvalidAt (c : Char) (rest : GoStr) : Bool :=
  if c = '%' then
    match rest with
    | c1 :: c2 :: _ => !(ishex c1 && ishex c2)
    | _ => true
  else shouldEscape c

def escapeHexCount : GoStr → Nat
  | [] => 0
  | c :: rest => (if pctInvalidAt c rest then 1 else 0) + escapeHexCount rest

/-- Copy pass of `escape` from part.go, written over an output buffer with an
explicit write index, mirroring the Go slice writes (including the slip that
stores the second hex digit of a kept `%HH` sequence at offset `j+3` instead of
`j+2`).  Go panics on an out-of-range write; the model drops such writes
(`Array.setD`); every input reasoned about below takes the `hexCount = 0`
early return and never reaches them. -/
def escapeLoop : GoStr → Array Char → Nat → Array Char
  | [], t, _ => t
  | '%' :: c1 :: c2 :: rest, t, j =>
    if ishex c1 && ishex c2 then
      escapeLoop (c1 :: c2 :: rest) (((t.setD j '%').setD (j+1) c1).setD (j+3) c2) (j+3)
    else
      escapeLoop (c1 :: c2 :: rest) (((t.setD j '%').setD (j+1) '2').setD (j+2) '5') (j+3)
  | '%' :: rest, t, j =>
    escapeLoop rest (((t.setD j '%').setD (j+1) '2').setD (j+2) '5') (j+3)
  | c :: rest, t, j =>
    if shouldEscape c then
      escapeLoop rest (((t.setD j '%').setD (j+1) (upperhex.getD (c.toNat / 16) '0')).setD (j+2)
        (upperhex.getD (c.toNat % 16) '0')) (j+3)
    else escapeLoop rest (t.setD j c) (j+1)

/-- Embedding of `escape` from part.go. -/
def escape (s : GoStr) : GoStr :=
  let hexCount := escapeHexCount s
  if hexCount = 0 then s
  else (escapeLoop s (Array.mkArray (s.length + 2 * hexCount) (Char.ofNat 0)) 0).toList

/-- Embedding of `cleanSegments` from part.go. -/
def cleanSegments (s : GoStr) : GoStr :=
  let src := goSplitChar '/' s
  let dst := src.filter (fun e => e ≠ gs "." ∧ e ≠ gs "..")
  let dst := if src.getLastD [] = gs "." ∨ src.getLastD [] = gs ".." then dst ++ [[]] else dst
  '/' :: goTrimPfxOf (goJoinChar '/' dst) (gs "/")

/-- Embedding of `split` from part.go (splits at the first occurrence of the
separator, keeping the separator in the second half). -/
def partSplit (s : GoStr) (sep : Char) : GoStr × GoStr :=
  match s.findIdx? (· = sep) with
  | none => (s, [])
  | some i => (s.take i, s.drop i)

/-- Embedding of `NormalizePartName` from part.go. -/
def NormalizePartName (name : GoStr) : GoStr :=
  let name := goTrimSpace name
  if name = [] ∨ name = gs "/" ∨ name = gs "\\" ∨ name = gs "." then []
  else
    let name := (partSplit name '#').1
    let name := goReplacer2 name
    let name := unescape name
    let name := escape name
    let name := cleanSegments name
    goTrimSuffix name (gs "/")

inductive OpcErr where
  | opc (code : Nat) (name : GoStr)
  | io (name : GoStr)
deriving DecidableEq, Repr

def contentTypesName : GoStr := gs "/[Content_Types].xml"

/-- Embedding of `validateChars` from part.go. -/
def validateChars (name : GoStr) : Option OpcErr :=
  if goEndsWith name (gs "/") then some (.opc 105 name)
  else if goEndsWith name (gs ".") then some (.opc 109 name)
  else if goContains name (gs "//") then some (.opc 103 name)
  else none

/-- Embedding of `validateSegments` from part.go. -/
def validateSegments (name : GoStr) : Option OpcErr :=
  if goContains name (gs "/./") ∨ goContains name (gs "/../") then some (.opc 110 name)
  else
    let u := goToUpper name
    if goContains u (gs "%5C") ∨ goContains u (gs "%2F") then some (.opc 107 name)
    else if goContains u (gs "%2D") ∨ goContains u (gs "%2E") ∨
        goContains u (gs "%5F") ∨ goContains u (gs "%7E") then some (.opc 108 name)
    else none

/-- Embedding of `validatePartName` from part.go.  Note the early acceptance
of the reserved content-types stream name. -/
def validatePartName (name : GoStr) : Option OpcErr :=
  if goEqualFold name contentTypesName then none
  else if goTrimSpace name = [] then some (.opc 101 name)
  else if name.head? ≠ some '/' then some (.opc 104 name)
  else match validateChars name with
    | some e => some e
    | none => match validateSegments name with
      | some e => some e
      | none => if validEncoded name then none else some (.opc 106 name)

/-! ### Package-wide constants (opc.go) -/

def corePropsRel : GoStr :=
  gs "http://schemas.openxmlformats.org/package/2006/relationships/metadata/core-properties"

def corePropsContentType : GoStr :=
  gs "application/vnd.openxmlformats-package.core-properties+xml"

def corePropsDefaultName : GoStr := gs "/props/core.xml"

def relationshipContentType : GoStr :=
  gs "application/vnd.openxmlformats-package.relationships+xml"

def packageRelName : GoStr := gs "/_rels/.rels"

/-! ### Model of Go `mime` (standard library), restricted to parameter-free
media types.  `mime.ParseMediaType` lower-cases and trims the media type and
fails on malformed input; `mime.FormatMediaType` of the parse result is then
the canonical lower-cased form.  Media-type parameters are not modelled (none
of the data treated here carries any). -/

def mimeTokenChar (c : Char) : Bool :=
  isAlpha c || isDigit c ||
  c = '!' || c = '#' || c = '$' || c = '&' || c = '\'' || c = '*' || c = '+' ||
  c = '-' || c = '.' || c = '^' || c = '_' || c = '`' || c = '|' || c = '~'

/-- Model of `mime.ParseMediaType` on parameter-free input: returns the
lower-cased trimmed media type, or `none` on malformed input.  Go also accepts
a bare token with no slash (the caller checks for the slash separately). -/
def mimeParse (v : GoStr) : Option GoStr :=
  let base := goToLower (goTrimSpace v)
  match goSplitChar '/' base with
  | [t, sub] =>
    if t ≠ [] ∧ sub ≠ [] ∧ t.all mimeTokenChar ∧ sub.all mimeTokenChar then some base else none
  | [t] => if t ≠ [] ∧ t.all mimeTokenChar then some t else none
  | _ => none

/-- Composition `mime.FormatMediaType(mime.ParseMediaType(ct))` as used by
`contentTypes.add`; a parse failure yields the empty string, as in Go. -/
def mimeCanon (v : GoStr) : GoStr := (mimeParse v).getD []

/-! ### Model of Go `net/url` (standard library), restricted to the URI
references occurring in relationship targets: optional scheme, then a path.
Authorities, queries, fragments and %-unescaping of the path are not modelled;
the relationship targets treated here are plain paths. -/

structure GoURL where
  scheme : GoStr
  path : GoStr
deriving DecidableEq, Repr

/-- Scheme extraction of `url.Parse`: `none` models a parse error (a `:`
before any scheme, as in `://a`). -/
def urlSplitScheme (s : GoStr) : Option (GoStr × GoStr) :=
  match s.findIdx? (fun c => c = ':' ∨ c = '/') with
  | some i =>
    if s.getD i ' ' = ':' then
      if i = 0 then none
      else if isAlpha (s.getD 0 ' ') ∧
          (s.take i).all (fun c => isAlpha c || isDigit c || c = '+' || c = '-' || c = '.') then
        some (goToLower (s.take i), s.drop (i + 1))
      else some ([], s)
    else some ([], s)
  | none => some ([], s)

/-- Model of `url.Parse` (restricted as described above). -/
def urlParse (s : GoStr) : Option GoURL :=
  if s.any (fun c => c.toNat < 0x20 ∨ c.toNat = 0x7f) then none
  else match urlSplitScheme s with
    | none => none
    | some (sc, rest) => some ⟨sc, rest⟩

def urlIsAbs (u : GoURL) : Bool := u.scheme ≠ []

def urlString (u : GoURL) : GoStr :=
  if u.scheme ≠ [] then u.scheme ++ ':' :: u.path else u.path

/-- Dot-segment resolution of `url.resolvePath`: `..` pops, `.` is dropped,
the result is rooted at `/`. -/
def resolveSegs : List GoStr → List GoStr → List GoStr
  | acc, [] => acc
  | acc, seg :: rest =>
    if seg = gs "." then resolveSegs acc rest
    else if seg = gs ".." then resolveSegs (acc.dropLast) rest
    else resolveSegs (acc ++ [seg]) rest

/-- Model of Go `url.resolvePath(base, ref)` for plain paths. -/
def urlResolvePath (base ref : GoStr) : GoStr :=
  let full :=
    if ref = [] then base
    else if ref.head? = some '/' then ref
    else
      match (base.reverse.findIdx? (· = '/')) with
      | some ri => base.take (base.length - ri) ++ ref
      | none => ref
  if full = [] then []
  else
    let segs := (goSplitChar '/' full).filter (· ≠ [])
    let keepSlash := goEndsWith full (gs "/") ∨ (segs.getLastD [] = gs ".") ∨
      (segs.getLastD [] = gs "..")
    let out := resolveSegs [] segs
    '/' :: goJoinChar '/' out ++ (if keepSlash ∧ out ≠ [] then gs "/" else [])

/-- Model of `base.ResolveReference(ref).String()` for the relative,
path-only references validated by `validateRelationshipTarget`. -/
def urlResolveRef (base ref : GoURL) : GoStr :=
  if ref.scheme ≠ [] then urlString ref
  else if ref.path = [] then urlString base
  else urlResolvePath base.path ref.path

/-! ### Embedding of the relationship code (relationship.go) -/

inductive TargetMode where
  | Internal
  | External
deriving DecidableEq, Repr

structure Relationship where
  ID : GoStr
  RelType : GoStr
  TargetURI : GoStr
  TargetMode : TargetMode
deriving DecidableEq, Repr

structure RelationshipXML where
  id : GoStr
  relType : GoStr
  targetURI : GoStr
  mode : GoStr
deriving DecidableEq, Repr

def externalMode : GoStr := gs "External"

/-- Embedding of `Relationship.toXML`: the leading `/` is added to the copy
destined for the XML attribute, not to the relationship itself. -/
def Relationship.toXML (r : Relationship) : RelationshipXML :=
  let targetMode := if r.TargetMode = .External then externalMode else []
  let x : RelationshipXML := ⟨r.ID, r.RelType, r.TargetURI, targetMode⟩
  if r.TargetMode = .Internal then
    if !goStartsWith x.targetURI (gs "/") && !goStartsWith x.targetURI (gs "\\") &&
        !goStartsWith x.targetURI (gs ".") then
      { x with targetURI := '/' :: x.targetURI }
    else x
  else x

/-- Embedding of `isRelationshipURI`. -/
def isRelationshipURI (uri : GoStr) : Bool :=
  let up := goToUpper uri
  if !goEndsWith up (gs ".RELS") then false
  else if goEqualFold up (gs "/_RELS/.RELS") then true
  else
    let segments := goSplitChar '/' up
    let ls := segments.length
    if ls ≥ 3 ∧ (segments.getLastD []).length > (gs ".RELS").length then
      goEqualFold (segments.getD (ls - 2) []) (gs "_RELS")
    else false

/-- Embedding of `validateRelationshipTarget`. -/
def validateRelationshipTarget (sourceURI targetURI : GoStr) (targetMode : TargetMode) :
    Option OpcErr :=
  match urlParse (goTrimSpace targetURI) with
  | none => some (.opc 128 sourceURI)
  | some uri =>
    if urlString uri = [] then some (.opc 128 sourceURI)
    else if targetMode = .Internal ∧ urlIsAbs uri then some (.opc 129 sourceURI)
    else if targetMode ≠ .External ∧ !urlIsAbs uri then
      match urlParse (goTrimSpace sourceURI) with
      | none => some (.opc 125 sourceURI)
      | some source =>
        if urlString source = [] ∨ isRelationshipURI (urlResolveRef source uri) then
          some (.opc 125 sourceURI)
        else none
    else none

/-- Embedding of `Relationship.validate`. -/
def Relationship.validate (r : Relationship) (sourceURI : GoStr) : Option OpcErr :=
  if goTrimSpace r.ID = [] then some (.opc 126 sourceURI)
  else if goTrimSpace r.RelType = [] then some (.opc 127 sourceURI)
  else validateRelationshipTarget sourceURI r.TargetURI r.TargetMode

/-- Embedding of `validateRelationships` (per-relationship validation plus
ID uniqueness, ISO M1.26). -/
def validateRelationships (sourceURI : GoStr) (rs : List Relationship) : Option OpcErr :=
  go rs []
where
  go : List Relationship → List GoStr → Option OpcErr
    | [], _ => none
    | r :: rest, ids =>
      match r.validate sourceURI with
      | some e => some e
      | none =>
        if r.ID ∈ ids then some (.opc 126 sourceURI)
        else go rest (r.ID :: ids)

/-- Embedding of `encodeRelationships`, in state-passing form: the returned
list is the final value of the relationship collection (unchanged), and the
first component is the sequence of encoded `Relationship` XML elements. -/
def encodeRelationships (rs : List Relationship) : List RelationshipXML × List Relationship :=
  (rs.map Relationship.toXML, rs)

/-- Modelled from the spec: the opc-package `Relationship.ensureID` is not
among the source files (only its gopc predecessor is); per §4.3 an empty ID is
replaced by a generated 8-character alphanumeric string from a seeded
generator.  The generator itself is out of scope (random-number generation is
an external collaborator), so it is modelled as a supply `gen : Nat → GoStr`
indexed by a counter. -/
def ensureID (gen : Nat → GoStr) (cnt : Nat) (r : Relationship) : Relationship × Nat :=
  if r.ID ≠ [] then (r, cnt) else ({ r with ID := gen cnt }, cnt + 1)

def ensureIDs (gen : Nat → GoStr) : Nat → List Relationship → List Relationship × Nat
  | cnt, [] => ([], cnt)
  | cnt, r :: rest =>
    let (r', cnt') := ensureID gen cnt r
    let (rest', cnt'') := ensureIDs gen cnt' rest
    (r' :: rest', cnt'')

/-- Modelled from the spec: `decodeRelationships` of the opc package is not
among the source files; per §4.3 each `Relationship` element's attributes are
read back verbatim and a mode other than `External` (including absent or
empty) is Internal. -/
def decodeRelationships (xs : List RelationshipXML) : List Relationship :=
  xs.map fun x =>
    ⟨x.id, x.relType, x.targetURI, if x.mode = externalMode then .External else .Internal⟩

/-! ### Models of Go `path` / `path/filepath` (standard library).  On the
slash-separated paths used by this package, `filepath.Dir`/`filepath.Base`
coincide with `path.Dir`/`path.Base`. -/

/-- Model of `path.Ext`: the suffix beginning at the final dot in the final
slash-separated element; empty if there is no dot. -/
def pathExt (s : GoStr) : GoStr :=
  go s.reverse []
where
  go : GoStr → GoStr → GoStr
    | [], _ => []
    | c :: rest, acc =>
      if c = '/' then []
      else if c = '.' then '.' :: acc
      else go rest (c :: acc)

/-- Segment processing of `path.Clean`: `.` is dropped, `..` pops a previous
segment when possible and is kept (when not rooted) otherwise. -/
def cleanSegsGo (rooted : Bool) : List GoStr → List GoStr → List GoStr
  | acc, [] => acc
  | acc, seg :: rest =>
    if seg = gs "." then cleanSegsGo rooted acc rest
    else if seg = gs ".." then
      if acc ≠ [] ∧ acc.getLastD [] ≠ gs ".." then cleanSegsGo rooted acc.dropLast rest
      else if rooted then cleanSegsGo rooted acc rest
      else cleanSegsGo rooted (acc ++ [gs ".."]) rest
    else cleanSegsGo rooted (acc ++ [seg]) rest

/-- Model of `path.Clean` (documented algorithm). -/
def pathClean (p : GoStr) : GoStr :=
  if p = [] then gs "."
  else
    let rooted := p.head? = some '/'
    let segs := (goSplitChar '/' p).filter (· ≠ [])
    let out := cleanSegsGo rooted [] segs
    let body := goJoinChar '/' out
    if rooted then '/' :: body
    else if body = [] then gs "." else body

/-- Model of `path.Dir` (and of `filepath.Dir` on slash paths). -/
def pathDir (p : GoStr) : GoStr :=
  match p.reverse.findIdx? (· = '/') with
  | some ri => pathClean (p.take (p.length - ri))
  | none => pathClean []

/-- Model of `path.Base` (and of `filepath.Base` on slash paths). -/
def pathBase (p : GoStr) : GoStr :=
  if p = [] then gs "."
  else
    let p := p.reverse.dropWhile (· = '/') |>.reverse
    if p = [] then gs "/"
    else match p.reverse.findIdx? (· = '/') with
      | some ri => p.drop (p.length - ri)
      | none => p

/-! ### Embedding of `Part` (part.go) -/

structure Part where
  Name : GoStr
  ContentType : GoStr
  Relationships : List Relationship
deriving DecidableEq, Repr

/-- Embedding of `Part.validateContentType`. -/
def Part.validateContentType (p : Part) : Option OpcErr :=
  if goTrimSpace p.ContentType = [] then some (.opc 102 p.Name)
  else if p.ContentType.head? = some ' ' ∨ goEndsWith p.ContentType (gs " ") then
    some (.opc 114 p.Name)
  else match mimeParse p.ContentType with
    | none => some (.opc 113 p.Name)
    | some t => if !goContains t (gs "/") then some (.opc 113 p.Name) else none

/-- Embedding of `Part.validate`. -/
def Part.validate (p : Part) : Option OpcErr :=
  match validatePartName p.Name with
  | some e => some e
  | none => match p.validateContentType with
    | some e => some e
    | none => validateRelationships p.Name p.Relationships

/-- Replacement of every occurrence of one character
(model of `strings.Replace(s, old, new, -1)` for one-character patterns). -/
def goReplaceChar (s : GoStr) (a b : Char) : GoStr :=
  s.map fun c => if c = a then b else c

/-- Embedding of `ResolveRelationship` from part.go. -/
def ResolveRelationship (source rel : GoStr) : GoStr :=
  let source := goReplaceChar source '\\' '/'
  let rel := goReplaceChar rel '\\' '/'
  let rel := if source = gs "/" ∧ !goStartsWith rel (gs "/") then '/' :: rel else rel
  if !goStartsWith rel (gs "/") then pathDir source ++ '/' :: rel else rel

/-! ### Embedding of the content-types dictionary (opc.go).  Go maps are
modelled as association lists whose insertion updates an existing key in
place; Go's randomized map iteration order becomes the insertion order. -/

def alistGet (l : List (GoStr × GoStr)) (k : GoStr) : Option GoStr :=
  (l.find? (·.1 = k)).map (·.2)

def alistSet (l : List (GoStr × GoStr)) (k v : GoStr) : List (GoStr × GoStr) :=
  if (l.find? (·.1 = k)).isSome then l.map (fun p => if p.1 = k then (k, v) else p)
  else l ++ [(k, v)]

structure ContentTypes where
  defaults : List (GoStr × GoStr)
  overrides : List (GoStr × GoStr)
deriving DecidableEq, Repr

instance : Inhabited ContentTypes := ⟨⟨[], []⟩⟩

def ContentTypes.addOverride (c : ContentTypes) (partName contentType : GoStr) : ContentTypes :=
  { c with overrides := alistSet c.overrides partName contentType }

def ContentTypes.addDefault (c : ContentTypes) (extension contentType : GoStr) : ContentTypes :=
  { c with defaults := alistSet c.defaults extension contentType }

/-- Embedding of `contentTypes.add` (ISO/IEC 29500-2 §10.1.2.3).  The Go
function always returns a nil error, so the embedding returns the updated
dictionary directly. -/
def ContentTypes.add (c : ContentTypes) (partName contentType : GoStr) : ContentTypes :=
  let contentType := mimeCanon contentType
  let ext := goToLower (pathExt partName)
  if ext.length = 0 then c.addOverride partName contentType
  else
    let ext := ext.drop 1
    match alistGet c.defaults ext with
    | some currentType =>
      if currentType ≠ contentType then c.addOverride partName contentType else c
    | none => c.addDefault ext contentType

/-- Embedding of `contentTypes.findType`. -/
def ContentTypes.findType (c : ContentTypes) (name : GoStr) : Except OpcErr GoStr :=
  match alistGet c.overrides (goToUpper name) with
  | some t => .ok t
  | none =>
    let ext := pathExt name
    if ext ≠ [] then
      match alistGet c.defaults (goToLower (ext.drop 1)) with
      | some t => .ok t
      | none => .error (.opc 208 name)
    else .error (.opc 208 name)

inductive CTXML where
  | dflt (extension contentType : GoStr)
  | override (partName contentType : GoStr)
deriving DecidableEq, Repr

/-- Embedding of `contentTypes.toXML`: one `Default` element per default
entry followed by one `Override` element per override entry. -/
def ContentTypes.toXML (c : ContentTypes) : List CTXML :=
  c.defaults.map (fun p => .dflt p.1 p.2) ++ c.overrides.map (fun p => .override p.1 p.2)

/-- Embedding of `decodeContentTypes` (reader.go). -/
def decodeContentTypes (ts : List CTXML) : Except OpcErr ContentTypes :=
  go ts ⟨[], []⟩
where
  go : List CTXML → ContentTypes → Except OpcErr ContentTypes
    | [], ct => .ok ct
    | .dflt extension contentType :: rest, ct =>
      let ext := goToLower extension
      if ext = [] then .error (.opc 206 (gs "/"))
      else if (alistGet ct.defaults ext).isSome then .error (.opc 205 (gs "/"))
      else go rest (ct.addDefault ext contentType)
    | .override pn contentType :: rest, ct =>
      let partName := goToUpper (NormalizePartName pn)
      if (alistGet ct.overrides partName).isSome then .error (.opc 205 partName)
      else go rest (ct.addOverride partName contentType)

/-! ### Embedding of the package (opc.go) -/

structure Pkg where
  parts : List GoStr
  contentTypes : ContentTypes
deriving DecidableEq, Repr

def newPackage : Pkg := ⟨[], ⟨[], []⟩⟩

def Pkg.partExists (p : Pkg) (partName : GoStr) : Bool := partName ∈ p.parts

/-- Embedding of `pkg.checkStringsPrefixCollision`: `s2` followed by `/` and
at least one character equals a prefix-derivation of `s1`. -/
def checkStringsPrefixCollision (s1 s2 : GoStr) : Bool :=
  goStartsWith s1 s2 && decide (s2.length < s1.length) && s1.getD s2.length ' ' = '/'

/-- Embedding of `pkg.checkPrefixCollision`: the candidate is inserted among
the existing keys, the list is sorted, and the candidate is compared with its
immediate neighbours.  The Go loop over indices `i` with `keys[i] = uri`
checking `keys[i-1]` and `keys[i+1]` is phrased over adjacent pairs, which
enumerates exactly the same comparisons. -/
def checkPrefixCollision (parts : List GoStr) (uri : GoStr) : Bool :=
  let keys := List.insertionSort (fun a b => strLe a b = true) (uri :: parts)
  (keys.zip keys.tail).any fun ab =>
    (ab.2 == uri && checkStringsPrefixCollision uri ab.1) ||
    (ab.1 == uri && checkStringsPrefixCollision ab.2 uri)

/-- Embedding of `pkg.add`. -/
def Pkg.add (p : Pkg) (part : Part) : Except OpcErr Pkg :=
  match part.validate with
  | some e => .error e
  | none =>
    let name := goToUpper (NormalizePartName part.Name)
    if p.partExists name then .error (.opc 112 part.Name)
    else if checkPrefixCollision p.parts name then .error (.opc 111 part.Name)
    else .ok ⟨p.parts ++ [name], p.contentTypes.add name part.ContentType⟩

/-- Embedding of `pkg.deletePart` (keyed by the upper-cased URI, without
normalization). -/
def Pkg.deletePart (p : Pkg) (uri : GoStr) : Pkg :=
  { p with parts := p.parts.filter (· ≠ goToUpper uri) }

/-! ### Embedding of core properties (opc.go) -/

structure CoreProperties where
  PartName : GoStr := []
  RelationshipID : GoStr := []
  Category : GoStr := []
  ContentStatus : GoStr := []
  Created : GoStr := []
  Creator : GoStr := []
  Description : GoStr := []
  Identifier : GoStr := []
  Keywords : GoStr := []
  Language : GoStr := []
  LastModifiedBy : GoStr := []
  LastPrinted : GoStr := []
  Modified : GoStr := []
  Revision : GoStr := []
  Subject : GoStr := []
  Title : GoStr := []
  Version : GoStr := []
deriving DecidableEq, Repr

instance : Inhabited CoreProperties := ⟨{}⟩

/-- The fifteen fields marshalled by `corePropertiesXMLMarshal`; `PartName`
and `RelationshipID` are never written to the package. -/
structure CorePropsXML where
  Category : GoStr
  ContentStatus : GoStr
  Created : GoStr
  Creator : GoStr
  Description : GoStr
  Identifier : GoStr
  Keywords : GoStr
  Language : GoStr
  LastModifiedBy : GoStr
  LastPrinted : GoStr
  Modified : GoStr
  Revision : GoStr
  Subject : GoStr
  Title : GoStr
  Version : GoStr
deriving DecidableEq, Repr

/-- Embedding of `CoreProperties.encode` at the element level (XML text
serialization is the external `encoding/xml`). -/
def CoreProperties.encode (c : CoreProperties) : CorePropsXML :=
  ⟨c.Category, c.ContentStatus, c.Created, c.Creator, c.Description, c.Identifier,
   c.Keywords, c.Language, c.LastModifiedBy, c.LastPrinted, c.Modified, c.Revision,
   c.Subject, c.Title, c.Version⟩

/-- Embedding of `decodeCoreProperties`: fills every marshalled field of the
given properties value, leaving `PartName` and `RelationshipID` as they were. -/
def decodeCoreProperties (x : CorePropsXML) (props : CoreProperties) : CoreProperties :=
  { props with
    Category := x.Category, ContentStatus := x.ContentStatus, Created := x.Created,
    Creator := x.Creator, Description := x.Description, Identifier := x.Identifier,
    Keywords := x.Keywords, Language := x.Language, LastModifiedBy := x.LastModifiedBy,
    LastPrinted := x.LastPrinted, Modified := x.Modified, Revision := x.Revision,
    Subject := x.Subject, Title := x.Title, Version := x.Version }

/-! ### Embedding of the Writer (writer.go).  The mutable `Writer` becomes a
state record; archive entries record the zip file-header data and the
structured content written to them (XML text serialization being the external
`encoding/xml`).  Of `zip.Writer.CreateHeader`'s failure modes the
deterministic one is modelled: constructing the registered deflate compressor
fails when the compression level is outside flate's accepted range, exactly
what an out-of-range `CompressionOption` produces. -/

def CompressionNone : Int := -1
def CompressionNormal : Int := 0
def CompressionMaximum : Int := 1
def CompressionFast : Int := 2
def CompressionSuperFast : Int := 3

def flateDefaultCompression : Int := -1
def flateNoCompression : Int := 0
def flateBestSpeed : Int := 1
def flateBestCompression : Int := 9

/-- Levels accepted by `flate.NewWriter`. -/
def flateLevelOk (l : Int) : Bool := -2 ≤ l ∧ l ≤ 9

/-- The flate level and header flag bits chosen by `setCompressor` for each
compression option. -/
def compSettings (compression : Int) : Int × Nat :=
  if compression = CompressionNormal then (flateDefaultCompression, 0)
  else if compression = CompressionMaximum then (flateBestCompression, 0x2)
  else if compression = CompressionFast then (flateBestSpeed, 0x4)
  else if compression = CompressionSuperFast then (flateBestSpeed, 0x6)
  else if compression = CompressionNone then (flateNoCompression, 0)
  else (-1000, 0)

def compLevel (compression : Int) : Int := (compSettings compression).1

def compFlags (compression : Int) : Nat := (compSettings compression).2

inductive ZipMethod where
  | store
  | deflate
deriving DecidableEq, Repr

inductive EntryContent where
  | body
  | relsPart (xml : List RelationshipXML)
  | ctPart (types : List CTXML)
  | corePart (props : CorePropsXML)
deriving DecidableEq, Repr

structure Entry where
  name : GoStr
  method : ZipMethod
  flags : Nat
  content : EntryContent
deriving DecidableEq, Repr

structure FileHeader where
  name : GoStr
  flags : Nat
  method : ZipMethod
deriving DecidableEq, Repr

structure WriterSt where
  Properties : CoreProperties
  Relationships : List Relationship
  p : Pkg
  entries : List Entry
  last : Option Part
  gen : Nat → GoStr
  genCount : Nat
  registered : Option Int

/-- Embedding of `NewWriter`; the seeded random source becomes the ID supply
`gen`. -/
def NewWriter (gen : Nat → GoStr) : WriterSt :=
  ⟨{}, [], newPackage, [], none, gen, 0, none⟩

/-- Embedding of `zipName`: the leading slash is stripped (ISO M3.4). -/
def zipName (partName : GoStr) : GoStr := partName.drop 1

/-- Embedding of `Writer.setCompressor`: the entry method is always set to
Deflate and a deflate compressor with the chosen level is registered. -/
def WriterSt.setCompressor (w : WriterSt) (fh : FileHeader) (compression : Int) :
    WriterSt × FileHeader :=
  let (comp, fh) :=
    if compression = CompressionNormal then (flateDefaultCompression, fh)
    else if compression = CompressionMaximum then
      (flateBestCompression, { fh with flags := fh.flags ||| 0x2 })
    else if compression = CompressionFast then
      (flateBestSpeed, { fh with flags := fh.flags ||| 0x4 })
    else if compression = CompressionSuperFast then
      (flateBestSpeed, { fh with flags := fh.flags ||| 0x6 })
    else if compression = CompressionNone then (flateNoCompression, fh)
    else (-1000, fh)
  ({ w with registered := some comp }, { fh with method := .deflate })

/-- Embedding of `Writer.addToPackage`.  The entry content is produced from
the package state right after the insertion, mirroring the Go code where the
caller writes to the returned entry after `addToPackage` returns. -/
def WriterSt.addToPackage (w : WriterSt) (part : Part) (compression : Int)
    (content : Pkg → EntryContent) : WriterSt × Option OpcErr :=
  match w.p.add part with
  | .error e => (w, some e)
  | .ok p' =>
    let w := { w with p := p' }
    let fh : FileHeader := ⟨zipName part.Name, 0, .store⟩
    let (w, fh) := w.setCompressor fh compression
    if flateLevelOk (w.registered.getD flateDefaultCompression) then
      ({ w with entries := w.entries ++ [⟨fh.name, fh.method, fh.flags, content w.p⟩] }, none)
    else
      ({ w with p := w.p.deletePart part.Name }, some (.io part.Name))

/-- The sidecar location computed by `createLastPartRelationships`: part
`/a/b/foo.xml` has its relationships at `/a/b/_rels/foo.xml.rels`. -/
def relNameFor (partName : GoStr) : GoStr :=
  let dirName := (pathDir partName).drop 1
  let dirName := if dirName ≠ [] then '/' :: dirName else dirName
  dirName ++ gs "/_rels/" ++ pathBase partName ++ gs ".rels"

/-- Embedding of `Writer.createLastPartRelationships` (the *advance*
transition): ensure IDs, validate, then emit the previous part's sidecar. -/
def WriterSt.createLastPartRelationships (w : WriterSt) : WriterSt × Option OpcErr :=
  match w.last with
  | none => (w, none)
  | some lp =>
    if lp.Relationships = [] then (w, none)
    else
      let (rels, cnt) := ensureIDs w.gen w.genCount lp.Relationships
      let lp := { lp with Relationships := rels }
      let w := { w with last := some lp, genCount := cnt }
      match validateRelationships lp.Name rels with
      | some e => (w, some e)
      | none =>
        w.addToPackage ⟨relNameFor lp.Name, relationshipContentType, []⟩ CompressionNormal
          (fun _ => .relsPart (encodeRelationships rels).1)

/-- Embedding of `Writer.createCoreProperties`. -/
def WriterSt.createCoreProperties (w : WriterSt) : WriterSt × Option OpcErr :=
  if w.Properties = {} then (w, none)
  else
    let partName := if w.Properties.PartName = [] then corePropsDefaultName
      else w.Properties.PartName
    let part : Part := ⟨partName, corePropsContentType, []⟩
    let enc := w.Properties.encode
    match w.addToPackage part CompressionNormal (fun _ => .corePart enc) with
    | (w, some e) => (w, some e)
    | (w, none) =>
      ({ w with Relationships := w.Relationships ++ [⟨[], corePropsRel, part.Name, .Internal⟩] },
        none)

/-- Embedding of `Writer.createOwnRelationships`. -/
def WriterSt.createOwnRelationships (w : WriterSt) : WriterSt × Option OpcErr :=
  if w.Relationships = [] then (w, none)
  else
    let (rels, cnt) := ensureIDs w.gen w.genCount w.Relationships
    let w := { w with Relationships := rels, genCount := cnt }
    match validateRelationships (gs "/") rels with
    | some e => (w, some e)
    | none =>
      w.addToPackage ⟨packageRelName, relationshipContentType, []⟩ CompressionNormal
        (fun _ => .relsPart (encodeRelationships rels).1)

/-- Embedding of `Writer.createContentTypes` (ISO M3.10): the content-types
part is first added to the package (which also feeds the dictionary), then the
dictionary as it stands afterwards is encoded. -/
def WriterSt.createContentTypes (w : WriterSt) : WriterSt × Option OpcErr :=
  w.addToPackage ⟨contentTypesName, gs "text/xml", []⟩ CompressionNormal
    (fun p => .ctPart p.contentTypes.toXML)

/-- Embedding of `Writer.Close`. -/
def WriterSt.close (w : WriterSt) : WriterSt × Option OpcErr :=
  match w.createLastPartRelationships with
  | (w, some e) => (w, some e)
  | (w, none) =>
    match w.createCoreProperties with
    | (w, some e) => (w, some e)
    | (w, none) =>
      match w.createOwnRelationships with
      | (w, some e) => (w, some e)
      | (w, none) => w.createContentTypes

/-- Embedding of `Writer.add` (the common path of `Create`/`CreatePart`). -/
def WriterSt.add (w : WriterSt) (part : Part) (compression : Int) : WriterSt × Option OpcErr :=
  match w.createLastPartRelationships with
  | (w, some e) => (w, some e)
  | (w, none) =>
    match w.addToPackage part compression (fun _ => .body) with
    | (w, none) => ({ w with last := some part }, none)
    | (w, some e) => (w, some e)

/-- Embedding of `Writer.CreatePart`. -/
def WriterSt.createPart (w : WriterSt) (part : Part) (compression : Int) :
    WriterSt × Option OpcErr :=
  w.add part compression

/-- A whole writer session: a sequence of `CreatePart` calls followed by
`Close`, every operation succeeding. -/
def runCreates (w : WriterSt) : List (Part × Int) → Option WriterSt
  | [] => some w
  | (part, comp) :: rest =>
    match w.createPart part comp with
    | (w, none) => runCreates w rest
    | (_, some _) => none

def runSession (w : WriterSt) (ops : List (Part × Int)) : Option WriterSt :=
  match runCreates w ops with
  | none => none
  | some w =>
    match w.close with
    | (w, none) => some w
    | (_, some _) => none

/-! ### Embedding of the Reader (reader.go).  The archive becomes the list of
entries produced by the Writer; `file.Name()` is the entry name.  A structured
content of the wrong kind models an XML document that fails to decode. -/

/-- Modelled from the spec: the `relationshipsPart` collection of the opc
package is not among the source files; per §4.6 it maps a derived owner part
name to the decoded relationships of its sidecar. -/
structure RelationshipsPart where
  rels : List (GoStr × List Relationship)
deriving Repr

def RelationshipsPart.addRelationship (rp : RelationshipsPart) (name : GoStr)
    (rls : List Relationship) : RelationshipsPart :=
  ⟨(rp.rels.filter (·.1 ≠ name)) ++ [(name, rls)]⟩

def RelationshipsPart.findRelationship (rp : RelationshipsPart) (name : GoStr) :
    List Relationship :=
  ((rp.rels.find? (·.1 = name)).map (·.2)).getD []

structure ReaderSt where
  Files : List Part
  Relationships : List Relationship
  Properties : CoreProperties
  p : Pkg
deriving Repr

/-- State accumulated by `Reader.loadPartProperties`. -/
structure LoadSt where
  ct : Option ContentTypes
  rels : RelationshipsPart
  pkgRels : List Relationship
  props : CoreProperties

/-- The owner part name derived from a sidecar's archive location by
`loadRelationships` (the inverse of the sidecar naming convention). -/
def sidecarOwner (fname : GoStr) : GoStr :=
  let name := pathDir (pathDir fname)
  let pname := '/' :: name ++ '/' :: goTrimSuffix (pathBase fname) (pathExt fname)
  NormalizePartName pname

/-- Embedding of `loadRelationships`: decode a sidecar and register it under
the owner part name derived from the sidecar location. -/
def loadRelationshipsEntry (e : Entry) (st : LoadSt) : Except OpcErr LoadSt :=
  match e.content with
  | .relsPart xs =>
    let rls := decodeRelationships xs
    .ok { st with rels := st.rels.addRelationship (sidecarOwner e.name) rls }
  | _ => .error (.io e.name)

/-- Embedding of `Reader.loadPackageRelationships`: decode `/_rels/.rels` and
remember the core-properties target named by the first relationship of the
core-properties type. -/
def loadPackageRelationshipsEntry (e : Entry) (st : LoadSt) : Except OpcErr LoadSt :=
  match e.content with
  | .relsPart xs =>
    let rls := decodeRelationships xs
    let st := { st with pkgRels := rls }
    match rls.find? (fun rel => goEqualFold rel.RelType corePropsRel) with
    | some rel =>
      .ok { st with props :=
        { st.props with PartName := rel.TargetURI, RelationshipID := rel.ID } }
    | none => .ok st
  | _ => .error (.io e.name)

/-- One step of `Reader.loadPartProperties`: the loop body run on a single
archive file. -/
def loadOneProp (e : Entry) (st : LoadSt) : Except OpcErr LoadSt :=
  let name := '/' :: e.name
  if goEqualFold name contentTypesName then
    match e.content with
    | .ctPart ts =>
      match decodeContentTypes ts with
      | .error e' => .error e'
      | .ok ct => .ok { st with ct := some ct }
    | _ => .error (.io e.name)
  else if isRelationshipURI name then
    if goEqualFold name packageRelName then loadPackageRelationshipsEntry e st
    else loadRelationshipsEntry e st
  else .ok st

/-- Embedding of `Reader.loadPartProperties` (the first pass): decode the
content-types stream and every relationships part. -/
def loadPartProperties (entries : List Entry) : Except OpcErr LoadSt :=
  match go entries ⟨none, ⟨[]⟩, [], {}⟩ with
  | .error e => .error e
  | .ok st => if st.ct.isNone then .error (.opc 310 (gs "/")) else .ok st
where
  go : List Entry → LoadSt → Except OpcErr LoadSt
    | [], st => .ok st
    | e :: rest, st =>
      match loadOneProp e st with
      | .error e' => .error e'
      | .ok st => go rest st

/-- One step of `Reader.loadPackage`: the loop body run on a single archive
file. -/
def loadOnePart (st : LoadSt) (ct : ContentTypes) (e : Entry) (r : ReaderSt) :
    Except OpcErr ReaderSt :=
  let fileName := '/' :: e.name
  if goEqualFold fileName contentTypesName || isRelationshipURI fileName ||
      goEndsWith fileName (gs "/") then
    .ok r
  else if goEqualFold fileName (ResolveRelationship (gs "/") r.Properties.PartName) then
    match e.content with
    | .corePart x => .ok { r with Properties := decodeCoreProperties x r.Properties }
    | _ => .error (.io e.name)
  else
    match ct.findType (NormalizePartName fileName) with
    | .error e' => .error e'
    | .ok cType =>
      let part : Part := ⟨fileName, cType, st.rels.findRelationship fileName⟩
      match r.p.add part with
      | .error e' => .error e'
      | .ok p' => .ok { r with Files := r.Files ++ [part], p := p' }

/-- Embedding of `Reader.loadPackage` (the second pass): build a `File` for
every entry that is neither the content-types stream, nor a relationships
part, nor a directory, nor the remembered core-properties part. -/
def loadPackage (entries : List Entry) : Except OpcErr ReaderSt :=
  match loadPartProperties entries with
  | .error e => .error e
  | .ok st =>
    let ct := st.ct.getD default
    match go st ct entries ⟨[], st.pkgRels, st.props, newPackage⟩ with
    | .error e => .error e
    | .ok r => .ok { r with p := { r.p with contentTypes := ct } }
where
  go (st : LoadSt) (ct : ContentTypes) : List Entry → ReaderSt → Except OpcErr ReaderSt
    | [], r => .ok r
    | e :: rest, r =>
      match loadOnePart st ct e r with
      | .error e' => .error e'
      | .ok r => go st ct rest r

/-- Embedding of `newReader` over the structured archive. -/
def newReader (entries : List Entry) : Except OpcErr ReaderSt := loadPackage entries

/-! ### Specification-side definitions and concrete ID supplies -/

/-- Specification companion of `checkPrefixCollision`, following the spec's
words: a collision exists when some existing key equals the name followed by
`/` plus a suffix, or vice versa. -/
def specCollisionExists (parts : List GoStr) (uri : GoStr) : Bool :=
  parts.any fun k => checkStringsPrefixCollision k uri || checkStringsPrefixCollision uri k

/-- A concrete ID supply for closed evaluations. -/
def genNil : Nat → GoStr := fun _ => []

/-- An ID supply producing a fixed 8-character alphanumeric ID, standing for
the seeded random generator. -/
def genFixed : Nat → GoStr := fun _ => gs "GenID123"

/-- Concrete data for the CreatePart atomicity analysis: a valid part with one
valid relationship, followed by a part whose name fails validation. -/
def c8rel : Relationship := ⟨gs "r1", gs "t", gs "/x.xml", .Internal⟩

def c8part1 : Part := ⟨gs "/a.xml", gs "a/b", [c8rel]⟩

def c8bad : Part := ⟨gs "b.xml", gs "a/b", []⟩

def c8w1 : WriterSt := ((NewWriter genFixed).createPart c8part1 CompressionNormal).1

def c8res : WriterSt × Option OpcErr := c8w1.createPart c8bad CompressionNormal

/-! ### Reference run of a writer session.  `runSpec`/`closeSpec` restate the
writer's computation in one sweep; the characterization theorems below prove
that a successful session produces exactly these entries, package and
relationship list. -/

inductive EntryKind where
  | body
  | rels
  | ctypes
  | core
deriving DecidableEq, Repr

def EntryContent.kind : EntryContent → EntryKind
  | .body => .body
  | .relsPart _ => .rels
  | .ctPart _ => .ctypes
  | .corePart _ => .core

def Entry.shape (e : Entry) : GoStr × EntryKind := (e.name, e.content.kind)

/-- Package insertion under a success assumption (the characterizations only
use it along runs where every `add` succeeded). -/
def pkgAddF (p : Pkg) (part : Part) : Pkg :=
  match p.add part with
  | .ok p2 => p2
  | .error _ => p

structure RunSpec where
  entries : List Entry
  cnt : Nat
  p : Pkg
  lastOpt : Option Part

/-- Reference advance transition. -/
def advSpec (gen : Nat → GoStr) (s : RunSpec) : RunSpec :=
  match s.lastOpt with
  | none => s
  | some lp =>
    if lp.Relationships = [] then s
    else
      let pr := ensureIDs gen s.cnt lp.Relationships
      { entries := s.entries ++
          [⟨zipName (relNameFor lp.Name), .deflate, 0, .relsPart (pr.1.map Relationship.toXML)⟩],
        cnt := pr.2,
        p := pkgAddF s.p ⟨relNameFor lp.Name, relationshipContentType, []⟩,
        lastOpt := some { lp with Relationships := pr.1 } }

/-- Reference CreatePart step. -/
def stepSpec (gen : Nat → GoStr) (s0 : RunSpec) (op : Part × Int) : RunSpec :=
  let s := advSpec gen s0
  { entries := s.entries ++ [⟨zipName op.1.Name, .deflate, compFlags op.2, .body⟩],
    cnt := s.cnt,
    p := pkgAddF s.p op.1,
    lastOpt := some op.1 }

def runSpec (gen : Nat → GoStr) : RunSpec → List (Part × Int) → RunSpec
  | s, [] => s
  | s, op :: rest => runSpec gen (stepSpec gen s op) rest

/-- Reference core-properties step of Close. -/
def corePropsSpec (s : RunSpec) (props : CoreProperties) (rels : List Relationship) :
    RunSpec × List Relationship :=
  if props = {} then (s, rels)
  else
    let partName := if props.PartName = [] then corePropsDefaultName else props.PartName
    ({ s with
        entries := s.entries ++ [⟨zipName partName, .deflate, 0, .corePart props.encode⟩],
        p := pkgAddF s.p ⟨partName, corePropsContentType, []⟩ },
      rels ++ [⟨[], corePropsRel, partName, .Internal⟩])

/-- Reference package-relationships step of Close. -/
def ownRelsSpec (gen : Nat → GoStr) (s : RunSpec) (rels : List Relationship) :
    RunSpec × List Relationship :=
  if rels = [] then (s, rels)
  else
    let pr := ensureIDs gen s.cnt rels
    ({ s with
        entries := s.entries ++
          [⟨zipName packageRelName, .deflate, 0, .relsPart (pr.1.map Relationship.toXML)⟩],
        cnt := pr.2,
        p := pkgAddF s.p ⟨packageRelName, relationshipContentType, []⟩ },
      pr.1)

/-- Reference content-types step of Close. -/
def ctSpec (s : RunSpec) : RunSpec :=
  let p2 := pkgAddF s.p ⟨contentTypesName, gs "text/xml", []⟩
  { s with
      entries := s.entries ++
        [⟨zipName contentTypesName, .deflate, 0, .ctPart p2.contentTypes.toXML⟩],
      p := p2 }

/-- Reference Close. -/
def closeSpec (gen : Nat → GoStr) (s0 : RunSpec) (props : CoreProperties)
    (rels : List Relationship) : RunSpec × List Relationship :=
  let sr := corePropsSpec (advSpec gen s0) props rels
  let sr2 := ownRelsSpec gen sr.1 sr.2
  (ctSpec sr2.1, sr2.2)

/-- A writer initialized with package metadata, as `NewWriter` followed by
setting the public `Properties` and `Relationships` fields. -/
def mkWriter (gen : Nat → GoStr) (props : CoreProperties) (rels : List Relationship) :
    WriterSt :=
  { NewWriter gen with Properties := props, Relationships := rels }

def WriterSt.spec (w : WriterSt) : RunSpec := ⟨w.entries, w.genCount, w.p, w.last⟩

/-- Concrete data for the ordering witness: two parts, the first carrying one
relationship. -/
def c2rel : Relationship := ⟨gs "r1", gs "t", gs "/b.xml", .Internal⟩

def c2p1 : Part := ⟨gs "/a.xml", gs "a/b", [c2rel]⟩

def c2p2 : Part := ⟨gs "/b.xml", gs "a/b", []⟩

def c2ops : List (Part × Int) := [(c2p1, CompressionNormal), (c2p2, CompressionNone)]

def c2wf : WriterSt := (runSession (mkWriter genFixed {} []) c2ops).getD (NewWriter genFixed)

/-! ### Well-formedness checklist for the restricted round-trip (C1).  Each
predicate is a decidable side condition on the caller's data (or on a name
derived from it); the restricted round-trip theorem assumes them and its
witness discharges them by evaluation. -/

/-- A relationship that survives the encode/decode cycle verbatim: its ID is
present (so no ID is generated for it) and, when internal, its target already
carries the leading slash that `toXML` would otherwise add. -/
def relOK (r : Relationship) : Bool :=
  !r.ID.isEmpty &&
    (r.TargetMode == TargetMode.External || goStartsWith r.TargetURI (gs "/"))

/-- The location where `findType`'s default branch looks for a key: the
lower-cased extension without its dot. -/
def lowExtKey (k : GoStr) : GoStr := (goToLower (pathExt k)).drop 1

/-- A content-types dictionary key (an upper-cased normalized part name) that
the dictionary code treats faithfully. -/
def keyWF (k : GoStr) : Bool :=
  decide (goToUpper k = k) && decide (NormalizePartName k = k) &&
    decide (goToLower (lowExtKey k) = lowExtKey k) &&
    decide (pathExt k = [] ∨ lowExtKey k ≠ [])

/-- A part name the reader classifies as a plain part. -/
def partNameWF (n : GoStr) : Bool :=
  goStartsWith n (gs "/") && !goEqualFold n contentTypesName && !isRelationshipURI n &&
    !goEndsWith n (gs "/") && !goEqualFold n (gs "/") &&
    decide (NormalizePartName n = n) && keyWF (goToUpper n) &&
    decide (goToLower (pathExt (goToUpper n)) = goToLower (pathExt n))

/-- The derived sidecar location of a part behaves as the reader expects. -/
def sidecarNameWF (n : GoStr) : Bool :=
  goStartsWith (relNameFor n) (gs "/") &&
    !goEqualFold (relNameFor n) contentTypesName &&
    isRelationshipURI (relNameFor n) &&
    !goEqualFold (relNameFor n) packageRelName &&
    decide (sidecarOwner (zipName (relNameFor n)) = n) &&
    decide (NormalizePartName (relNameFor n) = relNameFor n) &&
    keyWF (goToUpper (relNameFor n)) &&
    decide (Part.validate ⟨relNameFor n, relationshipContentType, []⟩ = none)

/-- The per-part checklist of the restricted round-trip. -/
def partWF (p : Part) : Bool :=
  partNameWF p.Name && decide (Part.validate p = none) &&
    decide (mimeCanon p.ContentType = p.ContentType) &&
    p.Relationships.all relOK &&
    (p.Relationships.isEmpty || sidecarNameWF p.Name)

/-- The per-relationship checklist for package-level relationships. -/
def pkgRelWF (r : Relationship) : Bool :=
  relOK r && !goEqualFold r.RelType corePropsRel

/-- The archive entry holding a part body. -/
def bodyEntry (op : Part × Int) : Entry :=
  ⟨zipName op.1.Name, .deflate, compFlags op.2, .body⟩

/-- The archive entry holding a part's relationships sidecar. -/
def sideEntry (p : Part) : Entry :=
  ⟨zipName (relNameFor p.Name), .deflate, 0, .relsPart (p.Relationships.map Relationship.toXML)⟩

/-- The package part standing for a relationships sidecar. -/
def sidecarPart (p : Part) : Part := ⟨relNameFor p.Name, relationshipContentType, []⟩

def opEntries (op : Part × Int) : List Entry :=
  bodyEntry op :: (if op.1.Relationships = [] then [] else [sideEntry op.1])

def opParts (op : Part × Int) : List Part :=
  op.1 :: (if op.1.Relationships = [] then [] else [sidecarPart op.1])

/-- The sidecar entry still owed for the writer's `last` part. -/
def pendEntries : Option Part → List Entry
  | none => []
  | some lp => if lp.Relationships = [] then [] else [sideEntry lp]

/-- The sidecar part still owed for the writer's `last` part. -/
def pendParts : Option Part → List Part
  | none => []
  | some lp => if lp.Relationships = [] then [] else [sidecarPart lp]

/-- Every part inserted into the package over a whole session, in insertion
order: each part followed by its sidecar, then the package-relationships part,
then the content-types part. -/
def sessionParts (ops : List (Part × Int)) (rels : List Relationship) : List Part :=
  ops.flatMap opParts ++
    (if rels = [] then [] else [⟨packageRelName, relationshipContentType, []⟩]) ++
    [⟨contentTypesName, gs "text/xml", []⟩]

/-- The content-types insertion performed for one package part. -/
def addsOf (l : List Part) : List (GoStr × GoStr) :=
  l.map fun q => (goToUpper (NormalizePartName q.Name), q.ContentType)

def sessionAdds (ops : List (Part × Int)) (rels : List Relationship) :
    List (GoStr × GoStr) :=
  addsOf (sessionParts ops rels)

/-- The dictionary keys inserted over a whole session. -/
def sessionKeys (ops : List (Part × Int)) (rels : List Relationship) : List GoStr :=
  (sessionAdds ops rels).map Prod.fst

def ctFold (l : List (GoStr × GoStr)) (c : ContentTypes) : ContentTypes :=
  l.foldl (fun c kt => c.add kt.1 kt.2) c

def pkgFold (l : List Part) (p : Pkg) : Pkg := l.foldl pkgAddF p

/-- Per-insertion well-formedness for the content-types dictionary. -/
def addWF (kt : GoStr × GoStr) : Bool :=
  keyWF kt.1 && decide (mimeCanon kt.2 = kt.2)

/-- The content a part finds in the dictionary: either an override under its
own key, or a default under its extension with no override shadowing it. -/
def ctAssigns (D : ContentTypes) (k t : GoStr) : Prop :=
  alistGet D.overrides k = some t ∨
    (alistGet D.overrides k = none ∧ pathExt k ≠ [] ∧
      alistGet D.defaults (lowExtKey k) = some t)

/-- The dictionary keys of the proper parts only. -/
def partKeys (ops : List (Part × Int)) : List GoStr :=
  ops.map fun op => goToUpper (NormalizePartName op.1.Name)

/-- The relationships-by-owner collection accumulated by the reader's first
pass over a session's sidecars. -/
def relsAcc (ops : List (Part × Int)) (rp : RelationshipsPart) : RelationshipsPart :=
  ops.foldl (fun rp op => if op.1.Relationships = [] then rp
    else rp.addRelationship op.1.Name op.1.Relationships) rp

/-- The dictionary invariant maintained along a run of well-formed
insertions starting from the empty dictionary. -/
def ctInv (done : List (GoStr × GoStr)) (D : ContentTypes) : Prop :=
  (∀ kv ∈ D.defaults, goToLower kv.1 = kv.1 ∧ kv.1 ≠ []) ∧
  (D.defaults.map Prod.fst).Nodup ∧
  (∀ kv ∈ D.overrides, kv.1 ∈ done.map Prod.fst) ∧
  (D.overrides.map Prod.fst).Nodup ∧
  (∀ kt ∈ done, ctAssigns D kt.1 kt.2)

/-! ### Concrete data for the round-trip witness and counterexample -/

/-- A relationship with an explicit ID and an already-rooted internal target. -/
def c1rel : Relationship := ⟨gs "rId1", gs "t", gs "/b.xml", .Internal⟩

def c1p1 : Part := ⟨gs "/docs/a.xml", gs "a/b", [c1rel]⟩

def c1p2 : Part := ⟨gs "/b.xml", gs "text/plain", []⟩

def c1ops : List (Part × Int) := [(c1p1, CompressionNormal), (c1p2, CompressionNone)]

def c1rels : List Relationship := [⟨gs "rId9", gs "rt", gs "/docs/a.xml", .Internal⟩]

def c1wf : WriterSt :=
  (runSession (mkWriter genFixed {} c1rels) c1ops).getD (NewWriter genFixed)

/-- A package-level relationship whose internal target lacks the leading
slash: the writer keeps it verbatim, but the emitted XML attribute gains a
`/` prefix, so the reader sees a different target. -/
def c1xrel : Relationship := ⟨gs "rId1", gs "t", gs "a.xml", .Internal⟩

def c1xwf : WriterSt :=
  (runSession (mkWriter genFixed {} [c1xrel]) []).getD (NewWriter genFixed)

end Opc

/-! Sanity checks against the spec's concrete Normalize scenarios. -/

example : Opc.NormalizePartName (Opc.gs "\\docs\\a.xml") = Opc.gs "/docs/a.xml" := by decide

example : Opc.NormalizePartName (Opc.gs "/%41/%61.xml") = Opc.gs "/A/a.xml" := by decide

example : Opc.NormalizePartName (Opc.gs "/../a.xml") = Opc.gs "/a.xml" := by decide

example : Opc.NormalizePartName (Opc.gs "/%2e/%2e/a.xml") = Opc.gs "/a.xml" := by decide

example : Opc.NormalizePartName (Opc.gs "///") = Opc.gs "/" := by decide

example : Opc.NormalizePartName (Opc.gs "/") = Opc.gs "" := by decide

open Opc

/-! ### Helper lemmas about the writer steps -/

theorem setCompressor_eq (w : WriterSt) (fh : FileHeader) (comp : Int) :
    w.setCompressor fh comp =
      ({ w with registered := some (compLevel comp) },
       ⟨fh.name, fh.flags ||| compFlags comp, .deflate⟩) := by
  unfold WriterSt.setCompressor compLevel compFlags compSettings
  split_ifs <;> simp [Nat.or_zero]

theorem addToPackage_add_error {w : WriterSt} {part : Part} {e : OpcErr} (comp : Int)
    (content : Pkg → EntryContent) (h : w.p.add part = .error e) :
    w.addToPackage part comp content = (w, some e) := by
  unfold WriterSt.addToPackage
  rw [h]

theorem addToPackage_add_ok_good {w : WriterSt} {part : Part} {p' : Pkg} (comp : Int)
    (content : Pkg → EntryContent) (h : w.p.add part = .ok p')
    (hl : flateLevelOk (compLevel comp) = true) :
    w.addToPackage part comp content =
      ({ w with
          p := p', registered := some (compLevel comp),
          entries := w.entries ++ [⟨zipName part.Name, .deflate, compFlags comp, content p'⟩] },
        none) := by
  unfold WriterSt.addToPackage
  rw [h]
  dsimp only
  rw [setCompressor_eq]
  dsimp only
  simp only [Option.getD_some, hl, if_true, Nat.zero_or]

theorem addToPackage_add_ok_bad {w : WriterSt} {part : Part} {p' : Pkg} (comp : Int)
    (content : Pkg → EntryContent) (h : w.p.add part = .ok p')
    (hl : flateLevelOk (compLevel comp) = false) :
    w.addToPackage part comp content =
      ({ w with p := Pkg.deletePart p' part.Name, registered := some (compLevel comp) },
        some (.io part.Name)) := by
  unfold WriterSt.addToPackage
  rw [h]
  dsimp only
  rw [setCompressor_eq]
  dsimp only
  simp only [Option.getD_some, hl, Bool.false_eq_true, if_false]

/-- Inversion of a successful `Writer.add`. -/
theorem add_ok_inv {w : WriterSt} {part : Part} {comp : Int} {w' : WriterSt}
    (h : w.add part comp = (w', none)) :
    ∃ w1 w2, w.createLastPartRelationships = (w1, none) ∧
      w1.addToPackage part comp (fun _ => .body) = (w2, none) ∧
      w' = { w2 with last := some part } := by
  unfold WriterSt.add at h
  split at h
  · simp at h
  · rename_i w1 heq1
    split at h
    · rename_i w2 heq2
      rw [Prod.mk.injEq] at h
      exact ⟨w1, w2, heq1, heq2, h.1.symm⟩
    · simp at h

/-- C5 amended: creating a part with `CompressionNone` records its archive
entry with the Deflate method and zero flags, and registers a deflate
compressor at level `flate.NoCompression`; the Store method is not used. -/
theorem C5_none_uses_deflate_with_no_compression (w : WriterSt) (part : Part) (w' : WriterSt)
    (h : w.createPart part CompressionNone = (w', none)) :
    w'.registered = some flateNoCompression ∧
    w'.entries.getLast? = some ⟨zipName part.Name, .deflate, 0, .body⟩ := by
  obtain ⟨w1, w2, hadv, hatp, hw⟩ := add_ok_inv h
  cases hadd : w1.p.add part with
  | error e => rw [addToPackage_add_error _ _ hadd] at hatp; simp at hatp
  | ok p' =>
    rw [addToPackage_add_ok_good _ _ hadd (by decide)] at hatp
    rw [Prod.mk.injEq] at hatp
    subst hw
    rw [← hatp.1]
    exact ⟨rfl, List.getLast?_concat _⟩

/-- C5 witness at a concrete input. -/
theorem C5_witness :
    (((NewWriter genNil).createPart ⟨gs "/a.xml", gs "a/b", []⟩ CompressionNone).1.registered =
        some flateNoCompression ∧
      ((NewWriter genNil).createPart ⟨gs "/a.xml", gs "a/b", []⟩
          CompressionNone).1.entries.getLast? =
        some ⟨zipName (gs "/a.xml"), .deflate, 0, .body⟩) :=
  C5_none_uses_deflate_with_no_compression _ _ _ (by
    have h2 : ((NewWriter genNil).createPart ⟨gs "/a.xml", gs "a/b", []⟩
        CompressionNone).2 = none := by decide
    rw [← h2])

/-- C5 counterexample: with `CompressionNone` the recorded method is Deflate,
not Store, so the claim's Store clause fails at this concrete input. -/
theorem C5_counterexample :
    (((NewWriter genNil).createPart ⟨gs "/a.xml", gs "a/b", []⟩ CompressionNone).2 = none ∧
      ((NewWriter genNil).createPart ⟨gs "/a.xml", gs "a/b", []⟩
          CompressionNone).1.entries.map Entry.method = [.deflate]) ∧
    ZipMethod.deflate ≠ ZipMethod.store := by
  constructor
  · constructor <;> decide
  · decide

/-- C6 amended: closing a fresh Writer (no parts, no relationships, no core
properties) succeeds and yields exactly one archive entry,
`[Content_Types].xml`, whose `Types` root carries exactly one `Default`
element (`xml` → `text/xml`, registered for the content-types part itself)
and no `Override` element. -/
theorem C6_empty_writer_close (gen : Nat → GoStr) :
    ((NewWriter gen).close).2 = none ∧
    ((NewWriter gen).close).1.entries =
      [⟨gs "[Content_Types].xml", .deflate, 0, .ctPart [.dflt (gs "xml") (gs "text/xml")]⟩] := by
  constructor <;> rfl

/-- C6 counterexample: the single entry's `Types` root is not empty — it
contains the `Default` element for the `xml` extension, refuting the claim's
"empty `Types` root" at the concrete empty writer. -/
theorem C6_counterexample :
    ((NewWriter genNil).close).2 = none ∧
    ((NewWriter genNil).close).1.entries.map (fun e => (e.name, e.content)) =
      [(gs "[Content_Types].xml", .ctPart [.dflt (gs "xml") (gs "text/xml")])] ∧
    (CTXML.dflt (gs "xml") (gs "text/xml") :: []) ≠ ([] : List CTXML) := by
  refine ⟨by decide, by decide, by decide⟩

/-- C7: at the failing input (core properties with a caller-provided
`RelationshipID`), `Close` appends the core-properties relationship with an
empty ID which is then replaced by a generated ID — the caller's
`RelationshipID` is ignored, contradicting the field's documentation; closing
with a different `RelationshipID` produces identical output.  The remaining
clauses of the claim (default part name, relationship type and target) hold. -/
theorem C7_relationship_id_ignored :
    (({ NewWriter genFixed with
        Properties := { Title := gs "T", RelationshipID := gs "rId1" } } : WriterSt).close.2 =
      none) ∧
    (({ NewWriter genFixed with
        Properties := { Title := gs "T", RelationshipID := gs "rId1" } } : WriterSt).close.1.Relationships =
      [⟨gs "GenID123", corePropsRel, corePropsDefaultName, .Internal⟩]) ∧
    (({ NewWriter genFixed with
        Properties := { Title := gs "T", RelationshipID := gs "rId1" } } : WriterSt).close.1.entries.map
        Entry.name =
      [gs "props/core.xml", gs "_rels/.rels", gs "[Content_Types].xml"]) ∧
    (({ NewWriter genFixed with
        Properties := { Title := gs "T", RelationshipID := gs "rId1" } } : WriterSt).close.1.entries =
      ({ NewWriter genFixed with
        Properties := { Title := gs "T", RelationshipID := gs "other" } } : WriterSt).close.1.entries) ∧
    gs "GenID123" ≠ gs "rId1" := by
  refine ⟨by decide, by decide, by decide, by decide, by decide⟩

/-- C9: part-name validation accepts every string that case-insensitively
equals the reserved content-types name before any grammar check runs, and a
caller-supplied part bearing such a name is accepted by `CreatePart` and
inserted into the package. -/
theorem C9_reserved_name_passes_validation :
    (∀ s : GoStr, goEqualFold s contentTypesName = true → validatePartName s = none) ∧
    ((NewWriter genNil).createPart ⟨gs "/[CONTENT_types].XML", gs "text/xml", []⟩
        CompressionNormal).2 = none ∧
    ((NewWriter genNil).createPart ⟨gs "/[CONTENT_types].XML", gs "text/xml", []⟩
        CompressionNormal).1.p.partExists
      (goToUpper (NormalizePartName (gs "/[CONTENT_types].XML"))) = true := by
  refine ⟨?_, by decide, by decide⟩
  intro s h
  unfold validatePartName
  rw [h]
  rfl

/-- C9 witness at a concrete input. -/
theorem C9_witness :
    goEqualFold (gs "/[content_TYPES].xml") contentTypesName = true ∧
    validatePartName (gs "/[content_TYPES].xml") = none :=
  ⟨by decide, C9_reserved_name_passes_validation.1 _ (by decide)⟩

/-- C10: encoding a relationship collection returns the collection itself
unchanged next to the encoded elements, and for an Internal relationship whose
target lacks a leading slash, backslash or dot the slash is added only on the
emitted XML attribute while the relationship's own fields are untouched. -/
theorem C10_encode_preserves_relationships :
    ∀ rs : List Relationship,
      (encodeRelationships rs).2 = rs ∧
      (encodeRelationships rs).1 = rs.map Relationship.toXML ∧
      ∀ r ∈ rs, r.TargetMode = .Internal →
        goStartsWith r.TargetURI (gs "/") = false →
        goStartsWith r.TargetURI (gs "\\") = false →
        goStartsWith r.TargetURI (gs ".") = false →
        r.toXML = ⟨r.ID, r.RelType, '/' :: r.TargetURI, []⟩ := by
  intro rs
  refine ⟨rfl, rfl, ?_⟩
  intro r _ hm h1 h2 h3
  unfold Relationship.toXML
  rw [hm]
  simp [h1, h2, h3]

/-- C10 witness at a concrete input. -/
theorem C10_witness :
    (encodeRelationships [⟨gs "r1", gs "t", gs "b.xml", .Internal⟩]).2 =
      [⟨gs "r1", gs "t", gs "b.xml", .Internal⟩] ∧
    Relationship.toXML ⟨gs "r1", gs "t", gs "b.xml", .Internal⟩ =
      ⟨gs "r1", gs "t", gs "/b.xml", []⟩ := by
  refine ⟨(C10_encode_preserves_relationships [⟨gs "r1", gs "t", gs "b.xml", .Internal⟩]).1, ?_⟩
  have h := (C10_encode_preserves_relationships [⟨gs "r1", gs "t", gs "b.xml", .Internal⟩]).2.2
    ⟨gs "r1", gs "t", gs "b.xml", .Internal⟩ (by decide) rfl (by decide) (by decide) (by decide)
  simpa [gs] using h

/-! ### C3: the prefix-collision check -/

theorem checkStringsPrefixCollision_iff (s1 s2 : GoStr) :
    checkStringsPrefixCollision s1 s2 = true ↔ ∃ s, s1 = s2 ++ '/' :: s := by
  unfold checkStringsPrefixCollision goStartsWith
  simp only [Bool.and_eq_true, List.isPrefixOf_iff_prefix, decide_eq_true_eq]
  constructor
  · rintro ⟨⟨⟨t, rfl⟩, hlen⟩, hget⟩
    cases t with
    | nil => simp at hlen
    | cons c t2 =>
      have hgd : (s2 ++ c :: t2).getD s2.length ' ' = c := by
        rw [List.getD_append_right _ _ _ _ (le_refl _)]
        simp
      rw [hgd] at hget
      exact ⟨t2, by rw [hget]⟩
  · rintro ⟨s, rfl⟩
    refine ⟨⟨⟨'/' :: s, rfl⟩, ?_⟩, ?_⟩
    · simp
    · rw [List.getD_append_right _ _ _ _ (le_refl _)]
      simp

/-- Soundness of the sorted-neighbour test: whenever `checkPrefixCollision`
reports a collision, some existing key really is the candidate followed by
`/` plus a suffix, or vice versa. -/
theorem prefixCollision_sound (parts : List GoStr) (uri : GoStr)
    (h : checkPrefixCollision parts uri = true) :
    ∃ k ∈ parts, (∃ s, k = uri ++ '/' :: s) ∨ (∃ s, uri = k ++ '/' :: s) := by
  unfold checkPrefixCollision at h
  rw [List.any_eq_true] at h
  obtain ⟨ab, hmem, hcond⟩ := h
  have hmem2 := List.of_mem_zip hmem
  have ha : ab.1 ∈ uri :: parts :=
    ((List.perm_insertionSort _ _).mem_iff).1 hmem2.1
  have hb : ab.2 ∈ uri :: parts :=
    ((List.perm_insertionSort _ _).mem_iff).1 (List.mem_of_mem_tail hmem2.2)
  rw [Bool.or_eq_true, Bool.and_eq_true, Bool.and_eq_true] at hcond
  cases hcond with
  | inl hc =>
    obtain ⟨hbu, hcoll⟩ := hc
    obtain ⟨s, hs⟩ := (checkStringsPrefixCollision_iff _ _).1 hcoll
    have hne : ab.1 ≠ uri := by
      intro he
      rw [he] at hs
      have hlen := congrArg List.length hs
      simp at hlen
    have hmp : ab.1 ∈ parts := by
      cases ha with
      | head => exact absurd rfl hne
      | tail _ hmem3 => exact hmem3
    exact ⟨ab.1, hmp, Or.inr ⟨s, hs⟩⟩
  | inr hc =>
    obtain ⟨hau, hcoll⟩ := hc
    obtain ⟨s, hs⟩ := (checkStringsPrefixCollision_iff _ _).1 hcoll
    have hne : ab.2 ≠ uri := by
      intro he
      rw [he] at hs
      have hlen := congrArg List.length hs
      simp at hlen
    have hmp : ab.2 ∈ parts := by
      cases hb with
      | head => exact absurd rfl hne
      | tail _ hmem3 => exact hmem3
    exact ⟨ab.2, hmp, Or.inl ⟨s, hs⟩⟩

/-- C3 amended: the sorted-neighbour test is sound — whenever
`checkPrefixCollision` reports a collision, some existing key really is the
candidate followed by `/` plus a suffix, or vice versa (for accepted part
keys, which never end in `/`, the suffix is necessarily nonempty).  The
converse direction of the claim is false: a collision is missed when an
unrelated key sorts strictly between the name and its segmented extension
(see the counterexample), so an accepted part name can be a strict segmented
prefix of another. -/
theorem C3_prefix_collision_sound (parts : List GoStr) (uri : GoStr)
    (h : checkPrefixCollision parts uri = true) :
    ∃ k ∈ parts, (∃ s, k = uri ++ '/' :: s) ∨ (∃ s, uri = k ++ '/' :: s) :=
  prefixCollision_sound parts uri h

/-- C3 witness at a concrete input where the check does fire. -/
theorem C3_witness :
    checkPrefixCollision [gs "/A/C"] (gs "/A") = true ∧
    ∃ k ∈ [gs "/A/C"], (∃ s, k = gs "/A" ++ '/' :: s) ∨ (∃ s, gs "/A" = k ++ '/' :: s) :=
  ⟨by decide, C3_prefix_collision_sound [gs "/A/C"] (gs "/A") (by decide)⟩

/-- C3 counterexample: with accepted keys `/A!B` and `/A/C` the candidate
`/A` has a segmented extension among the keys, yet the neighbour test reports
no collision, because `/A!B` sorts between `/A` and `/A/C`; consequently the
add-sequence `/a!b`, `/a/c`, `/a` is accepted in full and the package holds
the strict segmented prefix pair `/A`, `/A/C`. -/
theorem C3_counterexample :
    (checkPrefixCollision [gs "/A!B", gs "/A/C"] (gs "/A") = false ∧
      specCollisionExists [gs "/A!B", gs "/A/C"] (gs "/A") = true ∧
      checkStringsPrefixCollision (gs "/A/C") (gs "/A") = true) ∧
    ((((newPackage.add ⟨gs "/a!b", gs "a/b", []⟩).toOption.bind
          (fun p => (p.add ⟨gs "/a/c", gs "a/b", []⟩).toOption)).bind
          (fun p => (p.add ⟨gs "/a", gs "a/b", []⟩).toOption)).map Pkg.parts =
        some [gs "/A!B", gs "/A/C", gs "/A"]) := by
  exact ⟨⟨by decide, by decide, by decide⟩, by decide⟩

/-! ### C8: atomicity of CreatePart -/

theorem pkgAdd_ok_inv {p : Pkg} {part : Part} {p' : Pkg} (h : p.add part = .ok p') :
    part.validate = none ∧
    p.partExists (goToUpper (NormalizePartName part.Name)) = false ∧
    p' = ⟨p.parts ++ [goToUpper (NormalizePartName part.Name)],
          p.contentTypes.add (goToUpper (NormalizePartName part.Name)) part.ContentType⟩ := by
  unfold Pkg.add at h
  split at h
  · cases h
  · rename_i hval
    dsimp only at h
    split_ifs at h with h1 h2
    cases h
    exact ⟨hval, by simpa using h1, rfl⟩

/-- C8 amended: CreatePart is atomic only for the failed part's own
insertion.  When `pkg.add` rejects the part, nothing at all changes; when the
archive entry cannot be opened, the part's key is removed again (provided the
upper-cased name agrees with its normalized form) but the content-types entry
installed for the part remains; and the advance step may already have emitted
the previous part's relationships sidecar into the package before either
failure. -/
theorem C8_failed_insertion (w : WriterSt) (part : Part) (comp : Int)
    (content : Pkg → EntryContent) :
    (∀ e : OpcErr, w.p.add part = .error e →
      w.addToPackage part comp content = (w, some e)) ∧
    (∀ (w' : WriterSt) (e : OpcErr), w.addToPackage part comp content = (w', some e) →
      goToUpper (NormalizePartName part.Name) = goToUpper part.Name →
      w'.p.parts = w.p.parts) := by
  constructor
  · intro e h
    exact addToPackage_add_error _ _ h
  · intro w' e h hup
    cases hadd : w.p.add part with
    | error e2 =>
      rw [addToPackage_add_error _ _ hadd] at h
      rw [Prod.mk.injEq] at h
      rw [← h.1]
    | ok p' =>
      by_cases hl : flateLevelOk (compLevel comp) = true
      · rw [addToPackage_add_ok_good _ _ hadd hl] at h
        rw [Prod.mk.injEq] at h
        exact absurd h.2 (by simp)
      · have hl2 : flateLevelOk (compLevel comp) = false := by
          simpa using hl
        rw [addToPackage_add_ok_bad _ _ hadd hl2] at h
        rw [Prod.mk.injEq] at h
        rw [← h.1]
        obtain ⟨hval, hex, hp2⟩ := pkgAdd_ok_inv hadd
        subst hp2
        unfold Pkg.deletePart
        dsimp only
        rw [← hup]
        rw [List.filter_append]
        have hkey : List.filter (fun x => x ≠ goToUpper (NormalizePartName part.Name))
            [goToUpper (NormalizePartName part.Name)] = [] := by simp
        rw [hkey, List.append_nil]
        rw [List.filter_eq_self]
        intro a ha
        simp only [ne_eq, decide_eq_true_eq]
        intro hcontra
        subst hcontra
        unfold Pkg.partExists at hex
        simp only [decide_eq_false_iff_not] at hex
        exact hex ha

/-- C8 witness at concrete inputs: a validation failure leaves the writer
untouched, and an archive-open failure (invalid compression level) restores
the part set. -/
theorem C8_witness :
    ((NewWriter genFixed).addToPackage c8bad CompressionNormal (fun _ => .body) =
      (NewWriter genFixed, some (.opc 104 (gs "b.xml")))) ∧
    (((NewWriter genFixed).addToPackage ⟨gs "/a.xml", gs "a/b", []⟩ (-3)
        (fun _ => .body)).1.p.parts = (NewWriter genFixed).p.parts) := by
  constructor
  · exact (C8_failed_insertion (NewWriter genFixed) c8bad CompressionNormal (fun _ => .body)).1
      _ (by rfl)
  · refine (C8_failed_insertion (NewWriter genFixed) ⟨gs "/a.xml", gs "a/b", []⟩ (-3)
      (fun _ => .body)).2 _ (.io (gs "/a.xml")) ?_ (by decide)
    have h2 : ((NewWriter genFixed).addToPackage ⟨gs "/a.xml", gs "a/b", []⟩ (-3)
        (fun _ => .body)).2 = some (.io (gs "/a.xml")) := by decide
    rw [← h2]

/-- C8 counterexample: after a successful CreatePart of a part carrying a
relationship, a failing CreatePart (invalid part name) returns an error while
the package has gained the previous part's relationships sidecar and a new
content-types default — the caller-visible package state is not the state
from before the call. -/
theorem C8_counterexample :
    ((NewWriter genFixed).createPart c8part1 CompressionNormal).2 = none ∧
    c8res.2 = some (.opc 104 (gs "b.xml")) ∧
    c8w1.p.parts = [gs "/A.XML"] ∧
    c8res.1.p.parts = [gs "/A.XML", gs "/_RELS/A.XML.RELS"] ∧
    alistGet c8w1.p.contentTypes.defaults (gs "rels") = none ∧
    alistGet c8res.1.p.contentTypes.defaults (gs "rels") = some relationshipContentType := by
  refine ⟨by decide, by decide, by decide, by decide, by decide, by decide⟩

/-! ### C4: idempotence of NormalizePartName -/

theorem charOk_aux (c : Char) (h : isUnreserved c = true ∨ isReserved c = true) :
    goIsSpace c = false ∧ c ≠ '\\' ∧ c ≠ '#' ∧ c ≠ '%' ∧ shouldEscape c = false := by
  refine ⟨?_, ?_, ?_, ?_, ?_⟩
  · by_contra hx
    have h2 : goIsSpace c = true := by simpa using hx
    unfold goIsSpace at h2
    simp only [Bool.or_eq_true, decide_eq_true_eq] at h2
    rcases h2 with ((((rfl | rfl) | rfl) | rfl) | rfl) | rfl <;>
      rcases h with h | h <;> exact absurd h (by decide)
  · rintro rfl
    rcases h with h | h <;> exact absurd h (by decide)
  · rintro rfl
    rcases h with h | h <;> exact absurd h (by decide)
  · rintro rfl
    rcases h with h | h <;> exact absurd h (by decide)
  · rcases h with h | h <;> simp [shouldEscape, h]

theorem dropWhile_all_false {p : Char → Bool} {l : GoStr} (h : ∀ c ∈ l, p c = false) :
    l.dropWhile p = l := by
  cases l with
  | nil => rfl
  | cons a t => simp [List.dropWhile_cons, h a (by simp)]

theorem goTrimSpace_id {x : GoStr} (h : ∀ c ∈ x, goIsSpace c = false) : goTrimSpace x = x := by
  unfold goTrimSpace
  rw [dropWhile_all_false h, dropWhile_all_false (fun c hc => h c (by simpa using hc)),
    List.reverse_reverse]

theorem partSplit_fst_id {x : GoStr} {sep : Char} (h : ∀ c ∈ x, c ≠ sep) :
    (partSplit x sep).1 = x := by
  unfold partSplit
  have hnone : x.findIdx? (· = sep) = none := by
    rw [List.findIdx?_eq_none_iff]
    intro c hc
    simpa using h c hc
  rw [hnone]

theorem contains_cons_parts {s sub : GoStr} {c : Char} (h : goContains (c :: s) sub = false) :
    sub.isPrefixOf (c :: s) = false ∧ goContains s sub = false := by
  have h2 : (sub.isPrefixOf (c :: s) || goContains s sub) = false := h
  simpa using h2

theorem goReplacer2_id : ∀ {x : GoStr}, (∀ c ∈ x, c ≠ '\\') →
    goContains x (gs "//") = false → goReplacer2 x = x := by
  intro x
  induction x with
  | nil => intro _ _; rfl
  | cons c rest ih =>
    intro hb hss
    cases rest with
    | nil =>
      show goReplacer2 [c] = [c]
      simp only [goReplacer2]
      rw [if_neg (hb c (by simp))]
    | cons c2 rest2 =>
      have hc : c ≠ '\\' := hb c (by simp)
      have hnot2 : ¬(c = '/' ∧ c2 = '/') := by
        rintro ⟨rfl, rfl⟩
        have := (contains_cons_parts hss).1
        simp [gs, List.isPrefixOf] at this
      simp only [goReplacer2]
      rw [if_neg hc, if_neg hnot2]
      rw [ih (fun d hd => hb d (List.mem_cons_of_mem _ hd)) (contains_cons_parts hss).2]

theorem unescape_id : ∀ {x : GoStr}, (∀ c ∈ x, c ≠ '%') → unescape x = x := by
  intro x
  induction x with
  | nil => intro _; rfl
  | cons c rest ih =>
    intro h
    cases rest with
    | nil => rfl
    | cons c1 rest2 =>
      cases rest2 with
      | nil => rfl
      | cons c2 rest3 =>
        simp only [unescape]
        rw [if_neg (h c (by simp))]
        rw [ih (fun d hd => h d (List.mem_cons_of_mem _ hd))]

theorem escapeHexCount_zero {x : GoStr}
    (h : ∀ c ∈ x, c ≠ '%' ∧ shouldEscape c = false) : escapeHexCount x = 0 := by
  induction x with
  | nil => rfl
  | cons c rest ih =>
    simp only [escapeHexCount]
    rw [ih (fun d hd => h d (List.mem_cons_of_mem _ hd))]
    have h1 := h c (by simp)
    simp [pctInvalidAt, h1.1, h1.2]

theorem escape_id {x : GoStr} (h : escapeHexCount x = 0) : escape x = x := by
  simp [escape, h]

theorem goSplitChar_ne_nil (sep : Char) (s : GoStr) : goSplitChar sep s ≠ [] := by
  cases s with
  | nil => simp [goSplitChar]
  | cons c rest =>
    simp only [goSplitChar]
    by_cases h : c = sep
    · simp [h]
    · simp only [if_neg h]
      cases goSplitChar sep rest <;> simp

theorem goJoinChar_cons_cons (sep : Char) (c : Char) (t : GoStr) (ts : List GoStr) :
    goJoinChar sep ((c :: t) :: ts) = c :: goJoinChar sep (t :: ts) := by
  cases ts <;> rfl

theorem goJoinChar_nil_cons (sep : Char) {l : List GoStr} (h : l ≠ []) :
    goJoinChar sep ([] :: l) = sep :: goJoinChar sep l := by
  cases l with
  | nil => exact absurd rfl h
  | cons t ts => rfl

theorem goJoinChar_goSplitChar (sep : Char) : ∀ s : GoStr,
    goJoinChar sep (goSplitChar sep s) = s := by
  intro s
  induction s with
  | nil => rfl
  | cons c rest ih =>
    simp only [goSplitChar]
    by_cases h : c = sep
    · rw [if_pos h, goJoinChar_nil_cons sep (goSplitChar_ne_nil sep rest), ih, h]
    · rw [if_neg h]
      cases hrec : goSplitChar sep rest with
      | nil => exact absurd hrec (goSplitChar_ne_nil sep rest)
      | cons t ts =>
        rw [goJoinChar_cons_cons, ← hrec, ih]

theorem getLastD_mem {l : List GoStr} (h : l ≠ []) (d : GoStr) : l.getLastD d ∈ l := by
  cases l with
  | nil => exact absurd rfl h
  | cons a as =>
    show (a :: as).getLast (by simp) ∈ a :: as
    exact List.getLast_mem _

theorem cleanSegments_id {t : GoStr}
    (h4 : ∀ s ∈ goSplitChar '/' ('/' :: t), ¬(s = gs "." ∨ s = gs "..")) :
    cleanSegments ('/' :: t) = '/' :: t := by
  unfold cleanSegments
  dsimp only
  have hfil : (goSplitChar '/' ('/' :: t)).filter (fun e => e ≠ gs "." ∧ e ≠ gs "..") =
      goSplitChar '/' ('/' :: t) := by
    rw [List.filter_eq_self]
    intro a ha
    have := h4 a ha
    simp only [ne_eq, Bool.decide_and, Bool.and_eq_true, decide_eq_true_eq]
    exact ⟨fun hh => this (Or.inl hh), fun hh => this (Or.inr hh)⟩
  rw [hfil]
  have hlast := h4 _ (getLastD_mem (goSplitChar_ne_nil '/' ('/' :: t)) [])
  rw [if_neg hlast]
  rw [goJoinChar_goSplitChar]
  simp [goTrimPfxOf, gs, List.isPrefixOf]

theorem goTrimSuffix_id {x suf : GoStr} (h : goEndsWith x suf = false) :
    goTrimSuffix x suf = x := by
  simp [goTrimSuffix, h]

theorem startsWith_slash {x : GoStr} (h : goStartsWith x (gs "/") = true) :
    ∃ t, x = '/' :: t := by
  cases x with
  | nil => simp [goStartsWith, gs, List.isPrefixOf] at h
  | cons c t =>
    have hc : '/' = c := by simpa [goStartsWith, gs, List.isPrefixOf] using h
    exact ⟨t, by rw [← hc]⟩

/-- C4 amended: `NormalizePartName` is not idempotent in general (see the
counterexample), but on clean names — strings of unreserved or reserved
(pchar) ASCII characters that begin with `/`, contain no `//` and no `.` or
`..` segment, and do not end with `/` — it is the identity, and therefore
idempotent. -/
theorem C4_normalize_identity_on_clean (x : GoStr)
    (h0 : goStartsWith x (gs "/") = true)
    (h1 : ∀ c ∈ x, isUnreserved c = true ∨ isReserved c = true)
    (h2 : goContains x (gs "//") = false)
    (h3 : goEndsWith x (gs "/") = false)
    (h4 : ∀ s ∈ goSplitChar '/' x, ¬(s = gs "." ∨ s = gs "..")) :
    NormalizePartName x = x ∧
    NormalizePartName (NormalizePartName x) = NormalizePartName x := by
  obtain ⟨t, rfl⟩ := startsWith_slash h0
  have hfact := fun c hc => charOk_aux c (h1 c hc)
  have e1 : goTrimSpace ('/' :: t) = '/' :: t :=
    goTrimSpace_id (fun c hc => (hfact c hc).1)
  have hspec : ¬('/' :: t = [] ∨ '/' :: t = gs "/" ∨ '/' :: t = gs "\\" ∨ '/' :: t = gs ".") := by
    rintro (h | h | h | h)
    · exact absurd h (by simp)
    · have ht : t = [] := by simpa [gs] using h
      subst ht
      exact absurd h3 (by decide)
    · have := congrArg (fun l => List.headD l ' ') h
      simp [gs] at this
    · have := congrArg (fun l => List.headD l ' ') h
      simp [gs] at this
  have e2 : (partSplit ('/' :: t) '#').1 = '/' :: t :=
    partSplit_fst_id (fun c hc => (hfact c hc).2.2.1)
  have e3 : goReplacer2 ('/' :: t) = '/' :: t :=
    goReplacer2_id (fun c hc => (hfact c hc).2.1) h2
  have e4 : unescape ('/' :: t) = '/' :: t :=
    unescape_id (fun c hc => (hfact c hc).2.2.2.1)
  have e5 : escape ('/' :: t) = '/' :: t :=
    escape_id (escapeHexCount_zero
      (fun c hc => ⟨(hfact c hc).2.2.2.1, (hfact c hc).2.2.2.2⟩))
  have e6 : cleanSegments ('/' :: t) = '/' :: t := cleanSegments_id h4
  have e7 : goTrimSuffix ('/' :: t) (gs "/") = '/' :: t := goTrimSuffix_id h3
  have hNx : NormalizePartName ('/' :: t) = '/' :: t := by
    unfold NormalizePartName
    dsimp only
    rw [e1]
    rw [if_neg hspec]
    rw [e2, e3, e4, e5, e6, e7]
  refine ⟨hNx, ?_⟩
  rw [hNx]
  exact hNx

/-- C4 witness at a concrete clean input, including a subdirectory. -/
theorem C4_witness :
    NormalizePartName (gs "/docs/a-b.xml") = gs "/docs/a-b.xml" ∧
    NormalizePartName (NormalizePartName (gs "/docs/a-b.xml")) =
      NormalizePartName (gs "/docs/a-b.xml") :=
  C4_normalize_identity_on_clean (gs "/docs/a-b.xml") (by decide) (by decide) (by decide)
    (by decide) (by decide)

/-- C4 counterexample: `Normalize("///") = "/"` while `Normalize("/") = ""`,
so a second application changes the result. -/
theorem C4_counterexample :
    NormalizePartName (gs "///") = gs "/" ∧
    NormalizePartName (NormalizePartName (gs "///")) = gs "" ∧
    NormalizePartName (NormalizePartName (gs "///")) ≠ NormalizePartName (gs "///") := by
  refine ⟨by decide, by decide, by decide⟩

/-! ### Characterization of successful writer runs -/

theorem advance_ok_spec {w wa : WriterSt} (h : w.createLastPartRelationships = (wa, none)) :
    wa.spec = advSpec w.gen w.spec ∧ wa.Properties = w.Properties ∧
    wa.Relationships = w.Relationships ∧ wa.gen = w.gen := by
  unfold WriterSt.createLastPartRelationships at h
  cases hl : w.last with
  | none =>
    rw [hl] at h
    dsimp only at h
    rw [Prod.mk.injEq] at h
    rw [← h.1]
    simp [advSpec, WriterSt.spec, hl]
  | some lp =>
    rw [hl] at h
    dsimp only at h
    by_cases hre : lp.Relationships = []
    · rw [if_pos hre] at h
      rw [Prod.mk.injEq] at h
      rw [← h.1]
      simp [advSpec, WriterSt.spec, hl, hre]
    · rw [if_neg hre] at h
      cases hpr : ensureIDs w.gen w.genCount lp.Relationships with
      | mk rels cnt =>
        rw [hpr] at h
        dsimp only at h
        split at h
        · simp at h
        · rename_i hval
          cases hadd : (({ w with
              last := some { lp with Relationships := rels },
              genCount := cnt } : WriterSt)).p.add
              ⟨relNameFor lp.Name, relationshipContentType, []⟩ with
          | error e =>
            rw [addToPackage_add_error _ _ hadd] at h
            simp at h
          | ok p2 =>
            rw [addToPackage_add_ok_good _ _ hadd (by decide)] at h
            rw [Prod.mk.injEq] at h
            rw [← h.1]
            have hset : advSpec w.gen w.spec =
                { entries := w.entries ++
                    [⟨zipName (relNameFor lp.Name), .deflate, 0,
                      .relsPart (rels.map Relationship.toXML)⟩],
                  cnt := cnt,
                  p := pkgAddF w.p ⟨relNameFor lp.Name, relationshipContentType, []⟩,
                  lastOpt := some { lp with Relationships := rels } } := by
              simp [advSpec, WriterSt.spec, hl, hre, hpr]
            rw [hset]
            refine ⟨?_, rfl, rfl, rfl⟩
            have hp : pkgAddF w.p ⟨relNameFor lp.Name, relationshipContentType, []⟩ = p2 := by
              unfold pkgAddF
              rw [show (w.p.add ⟨relNameFor lp.Name, relationshipContentType, []⟩) =
                Except.ok p2 from hadd]
            simp [WriterSt.spec, hp, compFlags, compSettings, CompressionNormal,
              encodeRelationships]

theorem createPart_ok_spec {w w1 : WriterSt} {p : Part} {c : Int}
    (h : w.createPart p c = (w1, none)) :
    w1.spec = stepSpec w.gen w.spec (p, c) ∧ w1.Properties = w.Properties ∧
    w1.Relationships = w.Relationships ∧ w1.gen = w.gen := by
  obtain ⟨wa, wb, hadv, hatp, hw⟩ := add_ok_inv h
  obtain ⟨hsa, hpa, hra, hga⟩ := advance_ok_spec hadv
  cases hadd : wa.p.add p with
  | error e =>
    rw [addToPackage_add_error _ _ hadd] at hatp
    simp at hatp
  | ok p2 =>
    by_cases hlv : flateLevelOk (compLevel c) = true
    · rw [addToPackage_add_ok_good _ _ hadd hlv] at hatp
      rw [Prod.mk.injEq] at hatp
      subst hw
      rw [← hatp.1]
      have hp : pkgAddF wa.p p = p2 := by
        unfold pkgAddF
        rw [hadd]
      unfold stepSpec
      dsimp only
      rw [← hsa]
      refine ⟨?_, hpa, hra, hga⟩
      simp [WriterSt.spec, hp]
    · rw [addToPackage_add_ok_bad _ _ hadd (by simpa using hlv)] at hatp
      simp at hatp

theorem runCreates_spec (ops : List (Part × Int)) :
    ∀ {w w1 : WriterSt}, runCreates w ops = some w1 →
      w1.spec = runSpec w.gen w.spec ops ∧ w1.Properties = w.Properties ∧
      w1.Relationships = w.Relationships ∧ w1.gen = w.gen := by
  induction ops with
  | nil =>
    intro w w1 h
    have : w = w1 := by simpa [runCreates] using h
    subst this
    exact ⟨rfl, rfl, rfl, rfl⟩
  | cons op rest ih =>
    intro w w1 h
    unfold runCreates at h
    split at h
    · rename_i wmid heq
      obtain ⟨hs, hp, hr, hg⟩ := createPart_ok_spec heq
      obtain ⟨hs2, hp2, hr2, hg2⟩ := ih h
      refine ⟨?_, by rw [hp2, hp], by rw [hr2, hr], by rw [hg2, hg]⟩
      rw [hs2, hg, hs]
      rfl
    · simp at h

theorem coreProps_ok_spec {w wc : WriterSt} (h : w.createCoreProperties = (wc, none)) :
    (wc.spec, wc.Relationships) = corePropsSpec w.spec w.Properties w.Relationships ∧
    wc.gen = w.gen := by
  unfold WriterSt.createCoreProperties at h
  by_cases hp : w.Properties = {}
  · rw [if_pos hp] at h
    rw [Prod.mk.injEq] at h
    rw [← h.1]
    simp [corePropsSpec, hp]
  · rw [if_neg hp] at h
    dsimp only at h
    split at h
    · simp at h
    · rename_i w2 heq
      rw [Prod.mk.injEq] at h
      cases hadd : w.p.add ⟨(if w.Properties.PartName = [] then corePropsDefaultName
          else w.Properties.PartName), corePropsContentType, []⟩ with
      | error e =>
        rw [addToPackage_add_error _ _ hadd] at heq
        simp at heq
      | ok p2 =>
        rw [addToPackage_add_ok_good _ _ hadd (by decide)] at heq
        rw [Prod.mk.injEq] at heq
        rw [← h.1, ← heq.1]
        have hpk : pkgAddF w.p ⟨(if w.Properties.PartName = [] then corePropsDefaultName
            else w.Properties.PartName), corePropsContentType, []⟩ = p2 := by
          unfold pkgAddF
          rw [hadd]
        simp [corePropsSpec, hp, WriterSt.spec, hpk, compFlags, compSettings, CompressionNormal]

theorem ownRels_ok_spec {w wc : WriterSt} (h : w.createOwnRelationships = (wc, none)) :
    (wc.spec, wc.Relationships) = ownRelsSpec w.gen w.spec w.Relationships := by
  unfold WriterSt.createOwnRelationships at h
  by_cases hre : w.Relationships = []
  · rw [if_pos hre] at h
    rw [Prod.mk.injEq] at h
    rw [← h.1]
    simp [ownRelsSpec, hre]
  · rw [if_neg hre] at h
    cases hpr : ensureIDs w.gen w.genCount w.Relationships with
    | mk rels cnt =>
      rw [hpr] at h
      dsimp only at h
      split at h
      · simp at h
      · rename_i hval
        cases hadd : (({ w with Relationships := rels, genCount := cnt } : WriterSt)).p.add
            ⟨packageRelName, relationshipContentType, []⟩ with
        | error e =>
          rw [addToPackage_add_error _ _ hadd] at h
          simp at h
        | ok p2 =>
          rw [addToPackage_add_ok_good _ _ hadd (by decide)] at h
          rw [Prod.mk.injEq] at h
          rw [← h.1]
          have hset : ownRelsSpec w.gen w.spec w.Relationships =
              (RunSpec.mk
                (w.entries ++
                  [⟨zipName packageRelName, .deflate, 0,
                    .relsPart (rels.map Relationship.toXML)⟩])
                cnt
                (pkgAddF w.p ⟨packageRelName, relationshipContentType, []⟩)
                w.last,
              rels) := by
            simp [ownRelsSpec, WriterSt.spec, hre, hpr]
          rw [hset]
          have hpk : pkgAddF w.p ⟨packageRelName, relationshipContentType, []⟩ = p2 := by
            unfold pkgAddF
            rw [show (w.p.add ⟨packageRelName, relationshipContentType, []⟩) =
              Except.ok p2 from hadd]
          simp [WriterSt.spec, hpk, compFlags, compSettings, CompressionNormal,
            encodeRelationships]

theorem ct_ok_spec {w wc : WriterSt} (h : w.createContentTypes = (wc, none)) :
    wc.spec = ctSpec w.spec ∧ wc.Relationships = w.Relationships := by
  unfold WriterSt.createContentTypes at h
  cases hadd : w.p.add ⟨contentTypesName, gs "text/xml", []⟩ with
  | error e =>
    rw [addToPackage_add_error _ _ hadd] at h
    simp at h
  | ok p2 =>
    rw [addToPackage_add_ok_good _ _ hadd (by decide)] at h
    rw [Prod.mk.injEq] at h
    rw [← h.1]
    have hpk : pkgAddF w.p ⟨contentTypesName, gs "text/xml", []⟩ = p2 := by
      unfold pkgAddF
      rw [hadd]
    simp [ctSpec, WriterSt.spec, hpk, compFlags, compSettings, CompressionNormal]

theorem close_ok_spec {w wc : WriterSt} (h : w.close = (wc, none)) :
    (wc.spec, wc.Relationships) = closeSpec w.gen w.spec w.Properties w.Relationships := by
  unfold WriterSt.close at h
  split at h
  · simp at h
  · rename_i w1 heq1
    split at h
    · simp at h
    · rename_i w2 heq2
      split at h
      · simp at h
      · rename_i w3 heq3
        obtain ⟨hs1, hp1, hr1, hg1⟩ := advance_ok_spec heq1
        obtain ⟨hc2, hg2⟩ := coreProps_ok_spec heq2
        have hc3 := ownRels_ok_spec heq3
        obtain ⟨hs4, hr4⟩ := ct_ok_spec h
        have h2 : (w2.spec, w2.Relationships) =
            corePropsSpec (advSpec w.gen w.spec) w.Properties w.Relationships := by
          rw [hc2, hs1, hp1, hr1]
        have h3 : (w3.spec, w3.Relationships) =
            ownRelsSpec w.gen w2.spec w2.Relationships := by
          rw [hc3, hg2, hg1]
        have h2a : w2.spec =
            (corePropsSpec (advSpec w.gen w.spec) w.Properties w.Relationships).1 :=
          congrArg Prod.fst h2
        have h2b : w2.Relationships =
            (corePropsSpec (advSpec w.gen w.spec) w.Properties w.Relationships).2 :=
          congrArg Prod.snd h2
        have h3a : w3.spec = (ownRelsSpec w.gen w2.spec w2.Relationships).1 :=
          congrArg Prod.fst h3
        have h3b : w3.Relationships = (ownRelsSpec w.gen w2.spec w2.Relationships).2 :=
          congrArg Prod.snd h3
        unfold closeSpec
        dsimp only
        rw [hs4, hr4, Prod.mk.injEq]
        rw [h3a, h3b, h2a, h2b]
        exact ⟨rfl, rfl⟩

theorem runSession_ok_spec {gen : Nat → GoStr} {props : CoreProperties}
    {rels : List Relationship} {ops : List (Part × Int)} {wf : WriterSt}
    (h : runSession (mkWriter gen props rels) ops = some wf) :
    (wf.spec, wf.Relationships) =
      closeSpec gen (runSpec gen (mkWriter gen props rels).spec ops) props rels := by
  unfold runSession at h
  split at h
  · simp at h
  · rename_i w1 heq1
    split at h
    · rename_i w2 heq2
      rw [Option.some.injEq] at h
      subst h
      obtain ⟨hs, hp, hr, hg⟩ := runCreates_spec ops heq1
      have hcl := close_ok_spec heq2
      rw [hcl, hg, hp, hr, hs]
      rfl
    · simp at h

/-! ### Entry-bookkeeping lemmas for the reference run -/

theorem filter_body_concat_not (l : List Entry) (e : Entry)
    (he : (e.content.kind == EntryKind.body) = false) :
    (l ++ [e]).filter (fun x => x.content.kind == EntryKind.body) =
      l.filter (fun x => x.content.kind == EntryKind.body) := by
  simp [List.filter_append, List.filter, he]

theorem filter_body_concat_yes (l : List Entry) (e : Entry)
    (he : (e.content.kind == EntryKind.body) = true) :
    (l ++ [e]).filter (fun x => x.content.kind == EntryKind.body) =
      l.filter (fun x => x.content.kind == EntryKind.body) ++ [e] := by
  simp [List.filter_append, List.filter, he]

theorem advSpec_entries (gen : Nat → GoStr) (s : RunSpec) :
    ∃ t, (advSpec gen s).entries = s.entries ++ t := by
  unfold advSpec
  cases hl : s.lastOpt with
  | none => exact ⟨[], by simp⟩
  | some lp =>
    dsimp only
    by_cases hre : lp.Relationships = []
    · rw [if_pos hre]
      exact ⟨[], by simp⟩
    · rw [if_neg hre]
      exact ⟨_, rfl⟩

theorem advSpec_entries_rels (gen : Nat → GoStr) (s : RunSpec) (p : Part)
    (hl : s.lastOpt = some p) (hre : p.Relationships ≠ []) :
    (advSpec gen s).entries =
      s.entries ++ [⟨zipName (relNameFor p.Name), .deflate, 0,
        .relsPart ((ensureIDs gen s.cnt p.Relationships).1.map Relationship.toXML)⟩] := by
  unfold advSpec
  rw [hl]
  dsimp only
  rw [if_neg hre]

theorem stepSpec_entries (gen : Nat → GoStr) (s : RunSpec) (op : Part × Int) :
    (stepSpec gen s op).entries =
      (advSpec gen s).entries ++ [⟨zipName op.1.Name, .deflate, compFlags op.2, .body⟩] := rfl

theorem stepSpec_lastOpt (gen : Nat → GoStr) (s : RunSpec) (op : Part × Int) :
    (stepSpec gen s op).lastOpt = some op.1 := rfl

theorem runSpec_append (gen : Nat → GoStr) (xs ys : List (Part × Int)) :
    ∀ s : RunSpec, runSpec gen s (xs ++ ys) = runSpec gen (runSpec gen s xs) ys := by
  induction xs with
  | nil => intro s; rfl
  | cons x xs ih =>
    intro s
    rw [List.cons_append, runSpec, runSpec]
    exact ih (stepSpec gen s x)

theorem advSpec_runSpec_mono (gen : Nat → GoStr) (ops : List (Part × Int)) :
    ∀ s : RunSpec, ∃ t,
      (advSpec gen (runSpec gen s ops)).entries = (advSpec gen s).entries ++ t := by
  induction ops with
  | nil => intro s; exact ⟨[], by simp [runSpec]⟩
  | cons op rest ih =>
    intro s
    obtain ⟨t1, ht1⟩ := ih (stepSpec gen s op)
    obtain ⟨t2, ht2⟩ := advSpec_entries gen (stepSpec gen s op)
    refine ⟨[⟨zipName op.1.Name, .deflate, compFlags op.2, .body⟩] ++ t2 ++ t1, ?_⟩
    rw [runSpec, ht1, ht2, stepSpec_entries]
    simp

theorem corePropsSpec_entries (s : RunSpec) (props : CoreProperties)
    (rels : List Relationship) :
    ∃ t, (corePropsSpec s props rels).1.entries = s.entries ++ t := by
  unfold corePropsSpec
  by_cases hp : props = {}
  · rw [if_pos hp]
    exact ⟨[], by simp⟩
  · rw [if_neg hp]
    exact ⟨_, rfl⟩

theorem ownRelsSpec_entries (gen : Nat → GoStr) (s : RunSpec) (rels : List Relationship) :
    ∃ t, (ownRelsSpec gen s rels).1.entries = s.entries ++ t := by
  unfold ownRelsSpec
  by_cases hre : rels = []
  · rw [if_pos hre]
    exact ⟨[], by simp⟩
  · rw [if_neg hre]
    exact ⟨_, rfl⟩

theorem ctSpec_entries (s : RunSpec) :
    (ctSpec s).entries = s.entries ++
      [⟨zipName contentTypesName, .deflate, 0,
        .ctPart (pkgAddF s.p ⟨contentTypesName, gs "text/xml", []⟩).contentTypes.toXML⟩] := rfl

theorem closeSpec_entries_mono (gen : Nat → GoStr) (s : RunSpec) (props : CoreProperties)
    (rels : List Relationship) :
    ∃ t, (closeSpec gen s props rels).1.entries = (advSpec gen s).entries ++ t := by
  obtain ⟨t1, h1⟩ := corePropsSpec_entries (advSpec gen s) props rels
  obtain ⟨t2, h2⟩ := ownRelsSpec_entries gen (corePropsSpec (advSpec gen s) props rels).1
    (corePropsSpec (advSpec gen s) props rels).2
  refine ⟨t1 ++ t2 ++
    [⟨zipName contentTypesName, .deflate, 0,
      .ctPart (pkgAddF (ownRelsSpec gen (corePropsSpec (advSpec gen s) props rels).1
          (corePropsSpec (advSpec gen s) props rels).2).1.p
        ⟨contentTypesName, gs "text/xml", []⟩).contentTypes.toXML⟩], ?_⟩
  show (ctSpec (ownRelsSpec gen (corePropsSpec (advSpec gen s) props rels).1
      (corePropsSpec (advSpec gen s) props rels).2).1).entries = _
  rw [ctSpec_entries, h2, h1]
  simp

theorem filter_body_advSpec (gen : Nat → GoStr) (s : RunSpec) :
    (advSpec gen s).entries.filter (fun e => e.content.kind == EntryKind.body) =
      s.entries.filter (fun e => e.content.kind == EntryKind.body) := by
  unfold advSpec
  cases hl : s.lastOpt with
  | none => rfl
  | some lp =>
    dsimp only
    by_cases hre : lp.Relationships = []
    · rw [if_pos hre]
    · rw [if_neg hre]
      dsimp only
      exact filter_body_concat_not _ _ rfl

theorem filter_body_stepSpec (gen : Nat → GoStr) (s : RunSpec) (op : Part × Int) :
    (stepSpec gen s op).entries.filter (fun e => e.content.kind == EntryKind.body) =
      s.entries.filter (fun e => e.content.kind == EntryKind.body) ++
        [⟨zipName op.1.Name, .deflate, compFlags op.2, .body⟩] := by
  rw [stepSpec_entries,
    filter_body_concat_yes ((advSpec gen s).entries)
      ⟨zipName op.1.Name, .deflate, compFlags op.2, .body⟩ rfl,
    filter_body_advSpec]

theorem filter_body_runSpec (gen : Nat → GoStr) (ops : List (Part × Int)) :
    ∀ s : RunSpec,
      (runSpec gen s ops).entries.filter (fun e => e.content.kind == EntryKind.body) =
        s.entries.filter (fun e => e.content.kind == EntryKind.body) ++
          ops.map (fun op => ⟨zipName op.1.Name, .deflate, compFlags op.2, .body⟩) := by
  induction ops with
  | nil => intro s; simp [runSpec]
  | cons op rest ih =>
    intro s
    rw [runSpec, ih, filter_body_stepSpec]
    simp

theorem filter_body_corePropsSpec (s : RunSpec) (props : CoreProperties)
    (rels : List Relationship) :
    (corePropsSpec s props rels).1.entries.filter (fun e => e.content.kind == EntryKind.body) =
      s.entries.filter (fun e => e.content.kind == EntryKind.body) := by
  unfold corePropsSpec
  by_cases hp : props = {}
  · rw [if_pos hp]
  · rw [if_neg hp]
    dsimp only
    exact filter_body_concat_not _ _ rfl

theorem filter_body_ownRelsSpec (gen : Nat → GoStr) (s : RunSpec) (rels : List Relationship) :
    (ownRelsSpec gen s rels).1.entries.filter (fun e => e.content.kind == EntryKind.body) =
      s.entries.filter (fun e => e.content.kind == EntryKind.body) := by
  unfold ownRelsSpec
  by_cases hre : rels = []
  · rw [if_pos hre]
  · rw [if_neg hre]
    dsimp only
    exact filter_body_concat_not _ _ rfl

theorem filter_body_ctSpec (s : RunSpec) :
    (ctSpec s).entries.filter (fun e => e.content.kind == EntryKind.body) =
      s.entries.filter (fun e => e.content.kind == EntryKind.body) := by
  rw [ctSpec_entries]
  exact filter_body_concat_not _ _ rfl

theorem filter_body_closeSpec (gen : Nat → GoStr) (s : RunSpec) (props : CoreProperties)
    (rels : List Relationship) :
    (closeSpec gen s props rels).1.entries.filter (fun e => e.content.kind == EntryKind.body) =
      s.entries.filter (fun e => e.content.kind == EntryKind.body) := by
  show (ctSpec (ownRelsSpec gen (corePropsSpec (advSpec gen s) props rels).1
      (corePropsSpec (advSpec gen s) props rels).2).1).entries.filter
      (fun e => e.content.kind == EntryKind.body) = _
  rw [filter_body_ctSpec, filter_body_ownRelsSpec,
    filter_body_corePropsSpec, filter_body_advSpec]

theorem closeSpec_last_entry (gen : Nat → GoStr) (s : RunSpec) (props : CoreProperties)
    (rels : List Relationship) :
    ∃ ts, (closeSpec gen s props rels).1.entries.getLast? =
      some ⟨zipName contentTypesName, .deflate, 0, .ctPart ts⟩ := by
  refine ⟨(pkgAddF (ownRelsSpec gen (corePropsSpec (advSpec gen s) props rels).1
      (corePropsSpec (advSpec gen s) props rels).2).1.p
      ⟨contentTypesName, gs "text/xml", []⟩).contentTypes.toXML, ?_⟩
  show (ctSpec (ownRelsSpec gen (corePropsSpec (advSpec gen s) props rels).1
      (corePropsSpec (advSpec gen s) props rels).2).1).entries.getLast? = _
  rw [ctSpec_entries]
  exact List.getLast?_concat _

/-- C2: for every writer session (any initial package metadata, any sequence of
`CreatePart` operations) that ends in a successful `Close`: (a) the body
entries of the archive, in order, are exactly the created parts in invocation
order; (b) every created part with a non-empty relationships list has its body
entry immediately followed by its relationships sidecar entry (so the body
precedes the sidecar); (c) the final entry is `[Content_Types].xml`. -/
theorem C2_writer_ordering {gen : Nat → GoStr} {props : CoreProperties}
    {rels : List Relationship} {ops : List (Part × Int)} {wf : WriterSt}
    (h : runSession (mkWriter gen props rels) ops = some wf) :
    wf.entries.filter (fun e => e.content.kind == EntryKind.body) =
      ops.map (fun op => ⟨zipName op.1.Name, .deflate, compFlags op.2, .body⟩) ∧
    (∀ ops1 p c ops2, ops = ops1 ++ (p, c) :: ops2 → p.Relationships ≠ [] →
      ∃ pre rx post, wf.entries = pre ++
        (⟨zipName p.Name, .deflate, compFlags c, .body⟩ : Entry) ::
        (⟨zipName (relNameFor p.Name), .deflate, 0, .relsPart rx⟩ : Entry) :: post) ∧
    (∃ ts, wf.entries.getLast? =
      some ⟨zipName contentTypesName, .deflate, 0, .ctPart ts⟩) := by
  have hs := runSession_ok_spec h
  have hents : wf.entries =
      (closeSpec gen (runSpec gen (mkWriter gen props rels).spec ops) props rels).1.entries :=
    congrArg (fun x => x.1.entries) hs
  refine ⟨?_, ?_, ?_⟩
  · rw [hents, filter_body_closeSpec, filter_body_runSpec]
    rfl
  · intro ops1 p c ops2 hops hre
    subst hops
    rw [runSpec_append gen ops1 ((p, c) :: ops2)] at hents
    rw [show runSpec gen (runSpec gen (mkWriter gen props rels).spec ops1) ((p, c) :: ops2) =
        runSpec gen (stepSpec gen (runSpec gen (mkWriter gen props rels).spec ops1) (p, c))
          ops2 from rfl] at hents
    obtain ⟨tA, hA⟩ := closeSpec_entries_mono gen
      (runSpec gen (stepSpec gen (runSpec gen (mkWriter gen props rels).spec ops1) (p, c)) ops2)
      props rels
    obtain ⟨tB, hB⟩ := advSpec_runSpec_mono gen ops2
      (stepSpec gen (runSpec gen (mkWriter gen props rels).spec ops1) (p, c))
    have hside := advSpec_entries_rels gen
      (stepSpec gen (runSpec gen (mkWriter gen props rels).spec ops1) (p, c)) p
      (stepSpec_lastOpt gen _ _) hre
    refine ⟨(advSpec gen (runSpec gen (mkWriter gen props rels).spec ops1)).entries,
      ((ensureIDs gen
        (stepSpec gen (runSpec gen (mkWriter gen props rels).spec ops1) (p, c)).cnt
        p.Relationships).1.map Relationship.toXML),
      tB ++ tA, ?_⟩
    rw [hents, hA, hB, hside, stepSpec_entries]
    simp
  · rw [hents]
    exact closeSpec_last_entry gen _ props rels

/-- C2 witness at a concrete two-part session; the hypothesis is discharged by
evaluation and the ordering conclusions follow by applying the theorem. -/
theorem C2_witness :
    runSession (mkWriter genFixed {} []) c2ops = some c2wf ∧
    (c2wf.entries.filter (fun e => e.content.kind == EntryKind.body) =
      c2ops.map (fun op => ⟨zipName op.1.Name, .deflate, compFlags op.2, .body⟩) ∧
    (∀ ops1 p c ops2, c2ops = ops1 ++ (p, c) :: ops2 → p.Relationships ≠ [] →
      ∃ pre rx post, c2wf.entries = pre ++
        (⟨zipName p.Name, .deflate, compFlags c, .body⟩ : Entry) ::
        (⟨zipName (relNameFor p.Name), .deflate, 0, .relsPart rx⟩ : Entry) :: post) ∧
    (∃ ts, c2wf.entries.getLast? =
      some ⟨zipName contentTypesName, .deflate, 0, .ctPart ts⟩)) :=
  ⟨by rfl, @C2_writer_ordering genFixed {} [] c2ops c2wf (by rfl)⟩

/-! ### Round-trip helper lemmas (C1): strings, relationships, insertions -/

theorem slash_cons_drop {s : GoStr} (h : goStartsWith s (gs "/") = true) :
    '/' :: s.drop 1 = s := by
  cases s with
  | nil => simp [goStartsWith, gs, List.isPrefixOf] at h
  | cons c t =>
    have hc : c = '/' := by
      have := h
      unfold goStartsWith gs at this
      simp [List.isPrefixOf] at this
      exact this.symm
    subst hc
    rfl

theorem ensureIDs_id (gen : Nat → GoStr) (cnt : Nat) (rs : List Relationship)
    (h : ∀ r ∈ rs, r.ID ≠ []) : ensureIDs gen cnt rs = (rs, cnt) := by
  induction rs generalizing cnt with
  | nil => rfl
  | cons r rest ih =>
    have h1 : ensureID gen cnt r = (r, cnt) := by
      unfold ensureID
      rw [if_pos (h r (List.mem_cons_self _ _))]
    unfold ensureIDs
    rw [h1]
    dsimp only
    rw [ih cnt (fun x hx => h x (List.mem_cons_of_mem _ hx))]

theorem relOK_elim {r : Relationship} (h : relOK r = true) :
    r.ID ≠ [] ∧ (r.TargetMode = .External ∨ goStartsWith r.TargetURI (gs "/") = true) := by
  unfold relOK at h
  rw [Bool.and_eq_true, Bool.or_eq_true] at h
  refine ⟨by simpa using h.1, ?_⟩
  cases h.2 with
  | inl h2 => exact Or.inl (by simpa using h2)
  | inr h2 => exact Or.inr h2

theorem toXML_relOK {r : Relationship} (h : relOK r = true) :
    r.toXML = ⟨r.ID, r.RelType, r.TargetURI,
      if r.TargetMode = .External then externalMode else []⟩ := by
  obtain ⟨-, h2⟩ := relOK_elim h
  unfold Relationship.toXML
  cases hm : r.TargetMode with
  | External => simp
  | Internal =>
    rw [hm] at h2
    have hs : goStartsWith r.TargetURI (gs "/") = true :=
      h2.resolve_left (by decide)
    simp [hs]

theorem decodeRelationships_toXML (rs : List Relationship)
    (h : ∀ r ∈ rs, relOK r = true) :
    decodeRelationships (rs.map Relationship.toXML) = rs := by
  unfold decodeRelationships
  rw [List.map_map]
  have hpt : ∀ r ∈ rs, ((fun x : RelationshipXML =>
      (⟨x.id, x.relType, x.targetURI,
        if x.mode = externalMode then TargetMode.External else TargetMode.Internal⟩ :
        Relationship)) ∘ Relationship.toXML) r = r := by
    intro r hr
    rw [Function.comp_apply, toXML_relOK (h r hr)]
    dsimp only
    cases hm : r.TargetMode with
    | External =>
      show (⟨r.ID, r.RelType, r.TargetURI, TargetMode.External⟩ : Relationship) = r
      exact congrArg (fun m => Relationship.mk r.ID r.RelType r.TargetURI m) hm.symm
    | Internal =>
      show (⟨r.ID, r.RelType, r.TargetURI, TargetMode.Internal⟩ : Relationship) = r
      exact congrArg (fun m => Relationship.mk r.ID r.RelType r.TargetURI m) hm.symm
  rw [List.map_congr_left hpt]
  exact List.map_id rs

theorem alistGet_of_not_mem (l : List (GoStr × GoStr)) (k : GoStr)
    (h : k ∉ l.map Prod.fst) : alistGet l k = none := by
  induction l with
  | nil => rfl
  | cons kv rest ih =>
    simp only [List.map_cons, List.mem_cons, not_or] at h
    unfold alistGet at ih ⊢
    rw [List.find?_cons_of_neg _ (by
      simp only [decide_eq_true_eq]
      exact fun he => h.1 he.symm)]
    exact ih h.2

theorem alistGet_append (l1 l2 : List (GoStr × GoStr)) (k : GoStr) :
    alistGet (l1 ++ l2) k = (alistGet l1 k).or (alistGet l2 k) := by
  unfold alistGet
  rw [List.find?_append]
  cases List.find? (fun p => decide (p.1 = k)) l1 with
  | none => rfl
  | some kv => rfl

theorem alistGet_concat_self (l : List (GoStr × GoStr)) (k v : GoStr)
    (h : alistGet l k = none) : alistGet (l ++ [(k, v)]) k = some v := by
  rw [alistGet_append, h, Option.none_or]
  unfold alistGet
  rw [List.find?_cons_of_pos _ (by simp)]
  rfl

theorem alistSet_absent (l : List (GoStr × GoStr)) (k v : GoStr)
    (h : alistGet l k = none) : alistSet l k v = l ++ [(k, v)] := by
  rcases hf : l.find? (·.1 = k) with _ | kv
  · unfold alistSet
    rw [hf]
    rfl
  · unfold alistGet at h
    rw [hf] at h
    simp at h

theorem checkPrefixCollision_eq_false (parts : List GoStr) (uri : GoStr)
    (h : ∀ k ∈ parts, checkStringsPrefixCollision k uri = false ∧
      checkStringsPrefixCollision uri k = false) :
    checkPrefixCollision parts uri = false := by
  by_contra hc
  rw [Bool.not_eq_false] at hc
  obtain ⟨k, hk, hor⟩ := prefixCollision_sound parts uri hc
  cases hor with
  | inl h1 =>
    have ht := (checkStringsPrefixCollision_iff k uri).2 h1
    rw [(h k hk).1] at ht
    exact Bool.false_ne_true ht
  | inr h2 =>
    have ht := (checkStringsPrefixCollision_iff uri k).2 h2
    rw [(h k hk).2] at ht
    exact Bool.false_ne_true ht

/-- Sufficient conditions for `pkg.add` to succeed, with the exact result. -/
theorem pkgAdd_ok_of {p : Pkg} {part : Part}
    (hval : part.validate = none)
    (hex : goToUpper (NormalizePartName part.Name) ∉ p.parts)
    (hcol : checkPrefixCollision p.parts (goToUpper (NormalizePartName part.Name)) = false) :
    p.add part = .ok ⟨p.parts ++ [goToUpper (NormalizePartName part.Name)],
      p.contentTypes.add (goToUpper (NormalizePartName part.Name)) part.ContentType⟩ := by
  unfold Pkg.add
  rw [hval]
  dsimp only
  have hex2 : p.partExists (goToUpper (NormalizePartName part.Name)) = false := by
    unfold Pkg.partExists
    simpa using hex
  rw [hex2, hcol]
  simp

theorem pkgAddF_ok {p : Pkg} {part : Part}
    (hval : part.validate = none)
    (hex : goToUpper (NormalizePartName part.Name) ∉ p.parts)
    (hcol : checkPrefixCollision p.parts (goToUpper (NormalizePartName part.Name)) = false) :
    pkgAddF p part = ⟨p.parts ++ [goToUpper (NormalizePartName part.Name)],
      p.contentTypes.add (goToUpper (NormalizePartName part.Name)) part.ContentType⟩ := by
  unfold pkgAddF
  rw [pkgAdd_ok_of hval hex hcol]

theorem pkgFold_append (l1 l2 : List Part) (p : Pkg) :
    pkgFold (l1 ++ l2) p = pkgFold l2 (pkgFold l1 p) := by
  simp [pkgFold, List.foldl_append]

theorem advSpec_explicit (gen : Nat → GoStr) (s : RunSpec)
    (h : ∀ lp, s.lastOpt = some lp → ∀ r ∈ lp.Relationships, r.ID ≠ []) :
    (advSpec gen s).entries = s.entries ++ pendEntries s.lastOpt ∧
    (advSpec gen s).cnt = s.cnt ∧
    (advSpec gen s).p = pkgFold (pendParts s.lastOpt) s.p ∧
    (advSpec gen s).lastOpt = s.lastOpt := by
  unfold advSpec
  cases hl : s.lastOpt with
  | none =>
    simp [pendEntries, pendParts, pkgFold, hl]
  | some lp =>
    dsimp only
    by_cases hre : lp.Relationships = []
    · rw [if_pos hre]
      simp [pendEntries, pendParts, pkgFold, hre, hl]
    · rw [if_neg hre]
      rw [ensureIDs_id gen s.cnt lp.Relationships (h lp hl)]
      dsimp only
      simp [pendEntries, pendParts, pkgFold, hre, hl, sideEntry, sidecarPart]

theorem runSpec_explicit (gen : Nat → GoStr) (ops : List (Part × Int))
    (hops : ∀ op ∈ ops, ∀ r ∈ op.1.Relationships, r.ID ≠ []) :
    ∀ s : RunSpec, (∀ lp, s.lastOpt = some lp → ∀ r ∈ lp.Relationships, r.ID ≠ []) →
      (advSpec gen (runSpec gen s ops)).entries =
        s.entries ++ pendEntries s.lastOpt ++ ops.flatMap opEntries ∧
      (advSpec gen (runSpec gen s ops)).cnt = s.cnt ∧
      (advSpec gen (runSpec gen s ops)).p =
        pkgFold (pendParts s.lastOpt ++ ops.flatMap opParts) s.p := by
  induction ops with
  | nil =>
    intro s hs
    obtain ⟨he, hc, hp, -⟩ := advSpec_explicit gen s hs
    rw [show runSpec gen s [] = s from rfl]
    refine ⟨?_, hc, ?_⟩
    · rw [he]
      simp
    · rw [hp]
      simp
  | cons op rest ih =>
    intro s hs
    have hs1 : ∀ lp, (stepSpec gen s op).lastOpt = some lp →
        ∀ r ∈ lp.Relationships, r.ID ≠ [] := by
      intro lp hlp
      rw [stepSpec_lastOpt, Option.some.injEq] at hlp
      subst hlp
      exact hops op (List.mem_cons_self _ _)
    obtain ⟨he, hc, hp⟩ := ih (fun x hx => hops x (List.mem_cons_of_mem _ hx))
      (stepSpec gen s op) hs1
    obtain ⟨ha1, ha2, ha3, -⟩ := advSpec_explicit gen s hs
    have hst1 : (stepSpec gen s op).entries =
        s.entries ++ pendEntries s.lastOpt ++ [bodyEntry op] := by
      rw [stepSpec_entries, ha1]
      simp [bodyEntry]
    have hst2 : (stepSpec gen s op).cnt = s.cnt := by
      show (advSpec gen s).cnt = s.cnt
      exact ha2
    have hst3 : (stepSpec gen s op).p = pkgFold (pendParts s.lastOpt ++ [op.1]) s.p := by
      show pkgAddF (advSpec gen s).p op.1 = _
      rw [ha3, pkgFold_append]
      rfl
    rw [show runSpec gen s (op :: rest) = runSpec gen (stepSpec gen s op) rest from rfl]
    refine ⟨?_, ?_, ?_⟩
    · rw [he, hst1, stepSpec_lastOpt]
      dsimp only [pendEntries]
      rw [List.flatMap_cons]
      unfold opEntries
      simp
    · rw [hc, hst2]
    · rw [hp, hst3, stepSpec_lastOpt]
      dsimp only [pendParts]
      rw [List.flatMap_cons, ← pkgFold_append]
      congr 1
      unfold opParts
      simp

theorem corePropsSpec_empty (s : RunSpec) (rels : List Relationship) :
    corePropsSpec s {} rels = (s, rels) := by
  unfold corePropsSpec
  rw [if_pos rfl]

theorem closeSpec_explicit (gen : Nat → GoStr) (s : RunSpec) (rels : List Relationship)
    (hrels : ∀ r ∈ rels, r.ID ≠ []) :
    (closeSpec gen s {} rels).2 = rels ∧
    (closeSpec gen s {} rels).1.p =
      pkgFold ((if rels = [] then []
          else [⟨packageRelName, relationshipContentType, []⟩]) ++
        [⟨contentTypesName, gs "text/xml", []⟩]) (advSpec gen s).p ∧
    (closeSpec gen s {} rels).1.entries =
      (advSpec gen s).entries ++
        (if rels = [] then []
         else [⟨zipName packageRelName, .deflate, 0,
            .relsPart (rels.map Relationship.toXML)⟩]) ++
        [⟨zipName contentTypesName, .deflate, 0,
          .ctPart ((closeSpec gen s {} rels).1.p).contentTypes.toXML⟩] := by
  have hshape : closeSpec gen s {} rels =
      (ctSpec (ownRelsSpec gen (advSpec gen s) rels).1,
        (ownRelsSpec gen (advSpec gen s) rels).2) := by
    unfold closeSpec
    rw [corePropsSpec_empty]
  by_cases hre : rels = []
  · have hor : ownRelsSpec gen (advSpec gen s) rels = (advSpec gen s, rels) := by
      unfold ownRelsSpec
      rw [if_pos hre]
    rw [hshape, hor]
    subst hre
    refine ⟨rfl, ?_, ?_⟩
    · simp [ctSpec, pkgFold]
    · simp [ctSpec, pkgFold, zipName]
  · have hor : ownRelsSpec gen (advSpec gen s) rels =
        (⟨(advSpec gen s).entries ++
            [⟨zipName packageRelName, .deflate, 0,
              .relsPart (rels.map Relationship.toXML)⟩],
          (advSpec gen s).cnt,
          pkgAddF (advSpec gen s).p ⟨packageRelName, relationshipContentType, []⟩,
          (advSpec gen s).lastOpt⟩, rels) := by
      unfold ownRelsSpec
      rw [if_neg hre]
      rw [ensureIDs_id gen (advSpec gen s).cnt rels hrels]
    rw [hshape, hor]
    refine ⟨rfl, ?_, ?_⟩
    · rw [if_neg hre]
      simp [ctSpec, pkgFold]
    · rw [if_neg hre]
      simp [ctSpec, pkgFold]

theorem not_mem_of_alistGet_none {l : List (GoStr × GoStr)} {k : GoStr}
    (h : alistGet l k = none) : k ∉ l.map Prod.fst := by
  intro hmem
  obtain ⟨kv, hkv, hk⟩ := List.mem_map.1 hmem
  unfold alistGet at h
  rcases hf : List.find? (fun p => decide (p.1 = k)) l with _ | kv2
  · have hnp := List.find?_eq_none.1 hf kv hkv
    simp [hk] at hnp
  · rw [hf] at h
    cases h

/-- Explicit evaluation of a run of successful package insertions. -/
theorem pkgFold_explicit (l : List Part) :
    ∀ p : Pkg,
      (∀ q ∈ l, q.validate = none) →
      ((p.parts ++ (addsOf l).map Prod.fst).Pairwise (· ≠ ·)) →
      ((p.parts ++ (addsOf l).map Prod.fst).Pairwise
        (fun a b => checkStringsPrefixCollision a b = false ∧
          checkStringsPrefixCollision b a = false)) →
      pkgFold l p = ⟨p.parts ++ (addsOf l).map Prod.fst,
        ctFold (addsOf l) p.contentTypes⟩ := by
  induction l with
  | nil =>
    intro p hval hnd hcol
    show p = _
    simp [addsOf, ctFold]
  | cons q rest ih =>
    intro p hval hnd hcol
    have hkeys : (addsOf (q :: rest)).map Prod.fst =
        goToUpper (NormalizePartName q.Name) :: (addsOf rest).map Prod.fst := by
      simp [addsOf]
    rw [hkeys] at hnd hcol
    have hex : goToUpper (NormalizePartName q.Name) ∉ p.parts := by
      intro hmem
      rw [List.pairwise_append] at hnd
      exact hnd.2.2 _ hmem _ (List.mem_cons_self _ _) rfl
    have hcolf : checkPrefixCollision p.parts (goToUpper (NormalizePartName q.Name)) =
        false := by
      refine checkPrefixCollision_eq_false _ _ ?_
      intro k hk
      rw [List.pairwise_append] at hcol
      exact (hcol.2.2 _ hk _ (List.mem_cons_self _ _)).symm.imp id id |>.symm.imp id id
    have hstep : pkgAddF p q = ⟨p.parts ++ [goToUpper (NormalizePartName q.Name)],
        p.contentTypes.add (goToUpper (NormalizePartName q.Name)) q.ContentType⟩ :=
      pkgAddF_ok (hval q (List.mem_cons_self _ _)) hex hcolf
    have hre : pkgFold (q :: rest) p = pkgFold rest (pkgAddF p q) := rfl
    rw [hre, hstep]
    rw [ih _ (fun x hx => hval x (List.mem_cons_of_mem _ hx)) ?nd ?col]
    · rw [hkeys]
      dsimp only
      refine congrArg₂ Pkg.mk ?_ rfl
      simp
    case nd =>
      dsimp only
      have : (p.parts ++ [goToUpper (NormalizePartName q.Name)]) ++
          (addsOf rest).map Prod.fst =
          p.parts ++ goToUpper (NormalizePartName q.Name) :: (addsOf rest).map Prod.fst := by
        simp
      rw [this]
      exact hnd
    case col =>
      dsimp only
      have : (p.parts ++ [goToUpper (NormalizePartName q.Name)]) ++
          (addsOf rest).map Prod.fst =
          p.parts ++ goToUpper (NormalizePartName q.Name) :: (addsOf rest).map Prod.fst := by
        simp
      rw [this]
      exact hcol

theorem keyWF_elim {k : GoStr} (h : keyWF k = true) :
    goToUpper k = k ∧ NormalizePartName k = k ∧
    goToLower (lowExtKey k) = lowExtKey k ∧ (pathExt k = [] ∨ lowExtKey k ≠ []) := by
  unfold keyWF at h
  simp only [Bool.and_eq_true, decide_eq_true_eq] at h
  exact ⟨h.1.1.1, h.1.1.2, h.1.2, h.2⟩

theorem ctInv_step {done : List (GoStr × GoStr)} {D : ContentTypes} {k t : GoStr}
    (hinv : ctInv done D) (hwf : addWF (k, t) = true) (hfresh : k ∉ done.map Prod.fst) :
    ctInv (done ++ [(k, t)]) (D.add k t) := by
  obtain ⟨hd, hdnd, ho, hond, hass⟩ := hinv
  have hkWF : keyWF k = true := by
    have h2 := hwf
    unfold addWF at h2
    rw [Bool.and_eq_true] at h2
    exact h2.1
  have hcanon : mimeCanon t = t := by
    have h2 := hwf
    unfold addWF at h2
    rw [Bool.and_eq_true] at h2
    simpa using h2.2
  obtain ⟨hk1, hk2, hk3, hk4⟩ := keyWF_elim hkWF
  have hovnk : k ∉ D.overrides.map Prod.fst := by
    intro hmem
    obtain ⟨kv, hkv, hkk⟩ := List.mem_map.1 hmem
    exact hfresh (hkk ▸ ho kv hkv)
  have hovK : alistGet D.overrides k = none := alistGet_of_not_mem _ _ hovnk
  have hstepO : ctInv (done ++ [(k, t)]) (D.addOverride k t) := by
    unfold ContentTypes.addOverride
    rw [alistSet_absent _ _ _ hovK]
    refine ⟨hd, hdnd, ?_, ?_, ?_⟩
    · intro kv hkv
      rw [List.mem_append] at hkv
      rw [List.map_append]
      cases hkv with
      | inl hin => exact List.mem_append_left _ (ho kv hin)
      | inr hin =>
        rw [List.mem_singleton] at hin
        subst hin
        exact List.mem_append_right _ (by simp)
    · rw [List.map_append, List.nodup_append]
      refine ⟨hond, List.nodup_singleton _, ?_⟩
      intro a ha hb
      rw [List.map_singleton, List.mem_singleton] at hb
      subst hb
      exact hovnk ha
    · intro kt hkt
      rw [List.mem_append] at hkt
      cases hkt with
      | inl hin =>
        have hP := hass kt hin
        have hne : kt.1 ≠ k := by
          intro he
          exact hfresh (he ▸ List.mem_map_of_mem Prod.fst hin)
        unfold ctAssigns at hP ⊢
        dsimp only
        rw [alistGet_append]
        cases hP with
        | inl h1 =>
          refine Or.inl ?_
          rw [h1]
          rfl
        | inr h2 =>
          refine Or.inr ⟨?_, h2.2.1, h2.2.2⟩
          rw [h2.1, Option.none_or]
          exact alistGet_of_not_mem _ _ (by simp [hne])
      | inr hin =>
        rw [List.mem_singleton] at hin
        subst hin
        exact Or.inl (alistGet_concat_self _ _ _ hovK)
  unfold ContentTypes.add
  rw [hcanon]
  by_cases hextz : (goToLower (pathExt k)).length = 0
  · rw [if_pos hextz]
    exact hstepO
  · rw [if_neg hextz]
    dsimp only
    have hextnil : pathExt k ≠ [] := by
      intro hc
      rw [hc] at hextz
      exact hextz rfl
    have hlek : lowExtKey k ≠ [] := hk4.resolve_left hextnil
    rcases hget : alistGet D.defaults ((goToLower (pathExt k)).drop 1) with _ | cur
    · dsimp only
      unfold ContentTypes.addDefault
      rw [alistSet_absent _ _ _ hget]
      have hdfk : ((goToLower (pathExt k)).drop 1) ∉ D.defaults.map Prod.fst :=
        not_mem_of_alistGet_none hget
      refine ⟨?_, ?_, ?_, hond, ?_⟩
      · intro kv hkv
        rw [List.mem_append] at hkv
        cases hkv with
        | inl hin => exact hd kv hin
        | inr hin =>
          rw [List.mem_singleton] at hin
          subst hin
          exact ⟨hk3, hlek⟩
      · rw [List.map_append, List.nodup_append]
        refine ⟨hdnd, List.nodup_singleton _, ?_⟩
        intro a ha hb
        rw [List.map_singleton, List.mem_singleton] at hb
        subst hb
        exact hdfk ha
      · intro kv hkv
        rw [List.map_append]
        exact List.mem_append_left _ (ho kv hkv)
      · intro kt hkt
        rw [List.mem_append] at hkt
        cases hkt with
        | inl hin =>
          have hP := hass kt hin
          unfold ctAssigns at hP ⊢
          dsimp only
          cases hP with
          | inl h1 => exact Or.inl h1
          | inr h2 =>
            refine Or.inr ⟨h2.1, h2.2.1, ?_⟩
            rw [alistGet_append, h2.2.2]
            rfl
        | inr hin =>
          rw [List.mem_singleton] at hin
          subst hin
          exact Or.inr ⟨hovK, hextnil, alistGet_concat_self _ _ _ hget⟩
    · dsimp only
      by_cases hcur : cur ≠ t
      · rw [if_pos hcur]
        exact hstepO
      · rw [if_neg hcur]
        push_neg at hcur
        subst hcur
        refine ⟨hd, hdnd, ?_, hond, ?_⟩
        · intro kv hkv
          rw [List.map_append]
          exact List.mem_append_left _ (ho kv hkv)
        · intro kt hkt
          rw [List.mem_append] at hkt
          cases hkt with
          | inl hin => exact hass kt hin
          | inr hin =>
            rw [List.mem_singleton] at hin
            subst hin
            exact Or.inr ⟨hovK, hextnil, hget⟩

theorem ctInv_fold (l : List (GoStr × GoStr)) :
    ∀ done D, ctInv done D → (∀ kt ∈ l, addWF kt = true) →
      (done.map Prod.fst ++ l.map Prod.fst).Nodup →
      ctInv (done ++ l) (ctFold l D) := by
  induction l with
  | nil =>
    intro done D hinv _ _
    simpa using hinv
  | cons kt rest ih =>
    intro done D hinv hwf hnd
    rw [List.map_cons, List.nodup_append] at hnd
    have hfresh : kt.1 ∉ done.map Prod.fst := by
      intro hmem
      exact hnd.2.2 hmem (List.mem_cons_self _ _)
    have hstep := ctInv_step hinv (hwf kt (List.mem_cons_self _ _)) hfresh
    have hnd2 : ((done ++ [(kt.1, kt.2)]).map Prod.fst ++ rest.map Prod.fst).Nodup := by
      rw [List.map_append]
      have heq : (done.map Prod.fst ++ [(kt.1, kt.2)].map Prod.fst) ++ rest.map Prod.fst =
          done.map Prod.fst ++ (kt.1 :: rest.map Prod.fst) := by
        simp
      rw [heq, List.nodup_append]
      exact hnd
    have hmain := ih (done ++ [(kt.1, kt.2)]) (D.add kt.1 kt.2) hstep
      (fun x hx => hwf x (List.mem_cons_of_mem _ hx)) hnd2
    have heq2 : (done ++ [(kt.1, kt.2)]) ++ rest = done ++ kt :: rest := by
      simp
    rw [heq2] at hmain
    exact hmain

theorem ctInv_empty : ctInv [] ⟨[], []⟩ := by
  refine ⟨?_, ?_, ?_, ?_, ?_⟩ <;> simp

theorem findType_of_assigns {D : ContentTypes} {n t : GoStr}
    (hass : ctAssigns D (goToUpper n) t)
    (hcoh : goToLower (pathExt (goToUpper n)) = goToLower (pathExt n)) :
    D.findType n = .ok t := by
  unfold ContentTypes.findType
  unfold ctAssigns at hass
  cases hass with
  | inl hov =>
    rw [hov]
  | inr h2 =>
    obtain ⟨hnone, hext, hdef⟩ := h2
    rw [hnone]
    dsimp only
    have hextn : pathExt n ≠ [] := by
      intro hc
      apply hext
      have h0 : goToLower (pathExt (goToUpper n)) = [] := by
        rw [hcoh, hc]
        rfl
      unfold goToLower at h0
      exact List.map_eq_nil_iff.1 h0
    rw [if_pos hextn]
    have hkeyeq : goToLower ((pathExt n).drop 1) = lowExtKey (goToUpper n) := by
      unfold lowExtKey
      rw [hcoh]
      unfold goToLower
      exact List.map_drop goLowerChar (pathExt n) 1
    rw [hkeyeq, hdef]

theorem dec_defaults (dl : List (GoStr × GoStr)) :
    ∀ (acc : List (GoStr × GoStr)) (rest : List CTXML),
      (∀ kv ∈ dl, goToLower kv.1 = kv.1 ∧ kv.1 ≠ []) →
      (acc.map Prod.fst ++ dl.map Prod.fst).Nodup →
      decodeContentTypes.go (dl.map (fun p => CTXML.dflt p.1 p.2) ++ rest) ⟨acc, []⟩ =
        decodeContentTypes.go rest ⟨acc ++ dl, []⟩ := by
  induction dl with
  | nil =>
    intro acc rest _ _
    simp
  | cons kv dl' ih =>
    intro acc rest hwf hnd
    rw [List.map_cons, List.cons_append]
    have hlow : goToLower kv.1 = kv.1 := (hwf kv (List.mem_cons_self _ _)).1
    have hne : kv.1 ≠ [] := (hwf kv (List.mem_cons_self _ _)).2
    rw [List.map_cons, List.nodup_append] at hnd
    have hfresh : kv.1 ∉ acc.map Prod.fst := by
      intro hmem
      exact hnd.2.2 hmem (List.mem_cons_self _ _)
    have hgetacc : alistGet acc kv.1 = none := alistGet_of_not_mem _ _ hfresh
    have hstep : decodeContentTypes.go
        (CTXML.dflt kv.1 kv.2 :: (dl'.map (fun p => CTXML.dflt p.1 p.2) ++ rest))
        ⟨acc, []⟩ =
        decodeContentTypes.go (dl'.map (fun p => CTXML.dflt p.1 p.2) ++ rest)
          ⟨acc ++ [(kv.1, kv.2)], []⟩ := by
      rw [decodeContentTypes.go]
      dsimp only
      rw [hlow, if_neg hne, hgetacc]
      rw [if_neg (by simp)]
      unfold ContentTypes.addDefault
      dsimp only
      rw [alistSet_absent _ _ _ hgetacc]
    have hnd2 : ((acc ++ [(kv.1, kv.2)]).map Prod.fst ++ dl'.map Prod.fst).Nodup := by
      rw [List.map_append]
      have heq : (acc.map Prod.fst ++ [(kv.1, kv.2)].map Prod.fst) ++ dl'.map Prod.fst =
          acc.map Prod.fst ++ (kv.1 :: dl'.map Prod.fst) := by
        simp
      rw [heq, List.nodup_append]
      exact hnd
    rw [hstep, ih (acc ++ [(kv.1, kv.2)]) rest
      (fun x hx => hwf x (List.mem_cons_of_mem _ hx)) hnd2]
    have heq2 : (acc ++ [(kv.1, kv.2)]) ++ dl' = acc ++ kv :: dl' := by
      simp
    rw [heq2]

theorem dec_overrides (ol : List (GoStr × GoStr)) :
    ∀ (df acc : List (GoStr × GoStr)),
      (∀ kv ∈ ol, goToUpper (NormalizePartName kv.1) = kv.1) →
      (acc.map Prod.fst ++ ol.map Prod.fst).Nodup →
      decodeContentTypes.go (ol.map (fun p => CTXML.override p.1 p.2)) ⟨df, acc⟩ =
        .ok ⟨df, acc ++ ol⟩ := by
  induction ol with
  | nil =>
    intro df acc _ _
    simp [decodeContentTypes.go]
  | cons kv ol' ih =>
    intro df acc hwf hnd
    rw [List.map_cons]
    have hfix : goToUpper (NormalizePartName kv.1) = kv.1 :=
      hwf kv (List.mem_cons_self _ _)
    rw [List.map_cons, List.nodup_append] at hnd
    have hfresh : kv.1 ∉ acc.map Prod.fst := by
      intro hmem
      exact hnd.2.2 hmem (List.mem_cons_self _ _)
    have hgetacc : alistGet acc kv.1 = none := alistGet_of_not_mem _ _ hfresh
    have hstep : decodeContentTypes.go
        (CTXML.override kv.1 kv.2 :: ol'.map (fun p => CTXML.override p.1 p.2))
        ⟨df, acc⟩ =
        decodeContentTypes.go (ol'.map (fun p => CTXML.override p.1 p.2))
          ⟨df, acc ++ [(kv.1, kv.2)]⟩ := by
      rw [decodeContentTypes.go]
      dsimp only
      rw [hfix, hgetacc]
      rw [if_neg (by simp)]
      unfold ContentTypes.addOverride
      dsimp only
      rw [alistSet_absent _ _ _ hgetacc]
    have hnd2 : ((acc ++ [(kv.1, kv.2)]).map Prod.fst ++ ol'.map Prod.fst).Nodup := by
      rw [List.map_append]
      have heq : (acc.map Prod.fst ++ [(kv.1, kv.2)].map Prod.fst) ++ ol'.map Prod.fst =
          acc.map Prod.fst ++ (kv.1 :: ol'.map Prod.fst) := by
        simp
      rw [heq, List.nodup_append]
      exact hnd
    rw [hstep, ih df (acc ++ [(kv.1, kv.2)])
      (fun x hx => hwf x (List.mem_cons_of_mem _ hx)) hnd2]
    have heq2 : (acc ++ [(kv.1, kv.2)]) ++ ol' = acc ++ kv :: ol' := by
      simp
    rw [heq2]

theorem decodeContentTypes_toXML {D : ContentTypes}
    (hd : ∀ kv ∈ D.defaults, goToLower kv.1 = kv.1 ∧ kv.1 ≠ [])
    (hdnd : (D.defaults.map Prod.fst).Nodup)
    (ho : ∀ kv ∈ D.overrides, goToUpper (NormalizePartName kv.1) = kv.1)
    (hond : (D.overrides.map Prod.fst).Nodup) :
    decodeContentTypes D.toXML = .ok D := by
  unfold decodeContentTypes ContentTypes.toXML
  rw [dec_defaults D.defaults [] _ hd (by simpa using hdnd)]
  rw [List.nil_append]
  rw [dec_overrides D.overrides D.defaults [] ho (by simpa using hond)]
  rw [List.nil_append]

theorem partNameWF_elim {n : GoStr} (h : partNameWF n = true) :
    goStartsWith n (gs "/") = true ∧ goEqualFold n contentTypesName = false ∧
    isRelationshipURI n = false ∧ goEndsWith n (gs "/") = false ∧
    goEqualFold n (gs "/") = false ∧ NormalizePartName n = n ∧
    keyWF (goToUpper n) = true ∧
    goToLower (pathExt (goToUpper n)) = goToLower (pathExt n) := by
  unfold partNameWF at h
  simp only [Bool.and_eq_true, Bool.not_eq_true', decide_eq_true_eq] at h
  exact ⟨h.1.1.1.1.1.1.1, h.1.1.1.1.1.1.2, h.1.1.1.1.1.2, h.1.1.1.1.2,
    h.1.1.1.2, h.1.1.2, h.1.2, h.2⟩

theorem sidecarNameWF_elim {n : GoStr} (h : sidecarNameWF n = true) :
    goStartsWith (relNameFor n) (gs "/") = true ∧
    goEqualFold (relNameFor n) contentTypesName = false ∧
    isRelationshipURI (relNameFor n) = true ∧
    goEqualFold (relNameFor n) packageRelName = false ∧
    sidecarOwner (zipName (relNameFor n)) = n ∧
    NormalizePartName (relNameFor n) = relNameFor n ∧
    keyWF (goToUpper (relNameFor n)) = true ∧
    Part.validate ⟨relNameFor n, relationshipContentType, []⟩ = none := by
  unfold sidecarNameWF at h
  simp only [Bool.and_eq_true, Bool.not_eq_true', decide_eq_true_eq] at h
  exact ⟨h.1.1.1.1.1.1.1, h.1.1.1.1.1.1.2, h.1.1.1.1.1.2, h.1.1.1.1.2, h.1.1.1.2,
    h.1.1.2, h.1.2, h.2⟩

theorem partWF_elim {p : Part} (h : partWF p = true) :
    partNameWF p.Name = true ∧ Part.validate p = none ∧
    mimeCanon p.ContentType = p.ContentType ∧
    (∀ r ∈ p.Relationships, relOK r = true) ∧
    (p.Relationships = [] ∨ sidecarNameWF p.Name = true) := by
  unfold partWF at h
  simp only [Bool.and_eq_true, Bool.or_eq_true, decide_eq_true_eq, List.all_eq_true,
    List.isEmpty_iff] at h
  exact ⟨h.1.1.1.1, h.1.1.1.2, h.1.1.2, h.1.2, h.2⟩

theorem pkgRelWF_elim {r : Relationship} (h : pkgRelWF r = true) :
    relOK r = true ∧ goEqualFold r.RelType corePropsRel = false := by
  unfold pkgRelWF at h
  simp only [Bool.and_eq_true, Bool.not_eq_true'] at h
  exact h

/-! ### The reader's first pass over a session archive -/

theorem lpp_go_append (es1 : List Entry) :
    ∀ (es2 : List Entry) (st : LoadSt),
      loadPartProperties.go (es1 ++ es2) st =
        match loadPartProperties.go es1 st with
        | .error e => .error e
        | .ok st1 => loadPartProperties.go es2 st1 := by
  induction es1 with
  | nil => intro es2 st; rfl
  | cons e rest ih =>
    intro es2 st
    rw [List.cons_append]
    cases h : loadOneProp e st with
    | error e' =>
      rw [show loadPartProperties.go (e :: (rest ++ es2)) st = .error e' from by
        rw [loadPartProperties.go, h]]
      rw [show loadPartProperties.go (e :: rest) st = .error e' from by
        rw [loadPartProperties.go, h]]
    | ok st1 =>
      rw [show loadPartProperties.go (e :: (rest ++ es2)) st =
          loadPartProperties.go (rest ++ es2) st1 from by
        rw [loadPartProperties.go, h]]
      rw [show loadPartProperties.go (e :: rest) st =
          loadPartProperties.go rest st1 from by
        rw [loadPartProperties.go, h]]
      exact ih es2 st1

theorem loadOneProp_body {p : Part} {c : Int} {st : LoadSt}
    (h : partNameWF p.Name = true) :
    loadOneProp (bodyEntry (p, c)) st = .ok st := by
  obtain ⟨h1, h2, h3, -, -, -, -, -⟩ := partNameWF_elim h
  unfold loadOneProp
  rw [show '/' :: (bodyEntry (p, c)).name = p.Name from slash_cons_drop h1]
  simp [h2, h3]

theorem loadOneProp_side {p : Part} {st : LoadSt}
    (h : sidecarNameWF p.Name = true)
    (hrels : ∀ r ∈ p.Relationships, relOK r = true) :
    loadOneProp (sideEntry p) st =
      .ok { st with rels := st.rels.addRelationship p.Name p.Relationships } := by
  obtain ⟨h1, h2, h3, h4, h5, -, -, -⟩ := sidecarNameWF_elim h
  unfold loadOneProp
  rw [show '/' :: (sideEntry p).name = relNameFor p.Name from slash_cons_drop h1]
  dsimp only
  rw [h2, h3, h4]
  show loadRelationshipsEntry (sideEntry p) st = _
  unfold loadRelationshipsEntry sideEntry
  dsimp only
  rw [decodeRelationships_toXML _ hrels, h5]

theorem loadOneProp_pkgrels {rels : List Relationship} {st : LoadSt}
    (hr : ∀ r ∈ rels, pkgRelWF r = true) :
    loadOneProp ⟨zipName packageRelName, .deflate, 0,
        .relsPart (rels.map Relationship.toXML)⟩ st =
      .ok { st with pkgRels := rels } := by
  unfold loadOneProp
  rw [show '/' :: zipName packageRelName = packageRelName from by decide]
  dsimp only
  rw [show goEqualFold packageRelName contentTypesName = false from by decide]
  rw [show isRelationshipURI packageRelName = true from by decide]
  rw [show goEqualFold packageRelName packageRelName = true from by decide]
  rw [if_neg (by decide), if_pos rfl, if_pos rfl]
  unfold loadPackageRelationshipsEntry
  dsimp only
  rw [decodeRelationships_toXML _ (fun r hrr => (pkgRelWF_elim (hr r hrr)).1)]
  rw [List.find?_eq_none.2 (fun r hrr => by
    simp [(pkgRelWF_elim (hr r hrr)).2])]

theorem loadOneProp_ct {D : ContentTypes} {st : LoadSt}
    (hdec : decodeContentTypes D.toXML = .ok D) :
    loadOneProp ⟨zipName contentTypesName, .deflate, 0, .ctPart D.toXML⟩ st =
      .ok { st with ct := some D } := by
  unfold loadOneProp
  rw [show '/' :: zipName contentTypesName = contentTypesName from by decide]
  dsimp only
  rw [show goEqualFold contentTypesName contentTypesName = true from by decide]
  rw [if_pos rfl]
  rw [hdec]

theorem lpp_go_ops (ops : List (Part × Int)) :
    ∀ st : LoadSt, (∀ op ∈ ops, partWF op.1 = true) →
      loadPartProperties.go (ops.flatMap opEntries) st =
        .ok { st with rels := relsAcc ops st.rels } := by
  induction ops with
  | nil =>
    intro st _
    show Except.ok st = _
    rfl
  | cons op rest ih =>
    intro st hwf
    obtain ⟨hn, -, -, hrOK, hside⟩ := partWF_elim (hwf op (List.mem_cons_self _ _))
    rw [List.flatMap_cons, lpp_go_append]
    have hblock : loadPartProperties.go (opEntries op) st =
        .ok { st with rels := if op.1.Relationships = [] then st.rels
          else st.rels.addRelationship op.1.Name op.1.Relationships } := by
      unfold opEntries
      by_cases hre : op.1.Relationships = []
      · rw [if_pos hre, if_pos hre]
        rw [show loadPartProperties.go [bodyEntry op] st =
            (match loadOneProp (bodyEntry op) st with
              | .error e => .error e
              | .ok st1 => loadPartProperties.go [] st1) from by
          rw [loadPartProperties.go]]
        rw [show loadOneProp (bodyEntry op) st = .ok st from loadOneProp_body hn]
        rfl
      · rw [if_neg hre, if_neg hre]
        have hsd : sidecarNameWF op.1.Name = true := hside.resolve_left hre
        rw [show loadPartProperties.go [bodyEntry op, sideEntry op.1] st =
            (match loadOneProp (bodyEntry op) st with
              | .error e => .error e
              | .ok st1 => loadPartProperties.go [sideEntry op.1] st1) from by
          rw [loadPartProperties.go]]
        rw [show loadOneProp (bodyEntry op) st = .ok st from loadOneProp_body hn]
        show loadPartProperties.go [sideEntry op.1] st = _
        rw [show loadPartProperties.go [sideEntry op.1] st =
            (match loadOneProp (sideEntry op.1) st with
              | .error e => .error e
              | .ok st1 => loadPartProperties.go [] st1) from by
          rw [loadPartProperties.go]]
        rw [loadOneProp_side hsd hrOK]
        rfl
    rw [hblock]
    show loadPartProperties.go (rest.flatMap opEntries)
      { st with rels := if op.1.Relationships = [] then st.rels
        else st.rels.addRelationship op.1.Name op.1.Relationships } = _
    rw [ih _ (fun x hx => hwf x (List.mem_cons_of_mem _ hx))]
    show Except.ok _ = Except.ok _
    have : relsAcc (op :: rest) st.rels =
        relsAcc rest (if op.1.Relationships = [] then st.rels
          else st.rels.addRelationship op.1.Name op.1.Relationships) := rfl
    rw [this]

theorem loadPartProperties_session (ops : List (Part × Int)) (rels : List Relationship)
    (D : ContentTypes)
    (hops : ∀ op ∈ ops, partWF op.1 = true)
    (hrels : ∀ r ∈ rels, pkgRelWF r = true)
    (hdec : decodeContentTypes D.toXML = .ok D) :
    loadPartProperties (ops.flatMap opEntries ++
      (if rels = [] then [] else [⟨zipName packageRelName, .deflate, 0,
        .relsPart (rels.map Relationship.toXML)⟩]) ++
      [⟨zipName contentTypesName, .deflate, 0, .ctPart D.toXML⟩]) =
      .ok ⟨some D, relsAcc ops ⟨[]⟩, rels, {}⟩ := by
  have hmid : loadPartProperties.go
      (if rels = [] then [] else [⟨zipName packageRelName, .deflate, 0,
        .relsPart (rels.map Relationship.toXML)⟩])
      (⟨none, relsAcc ops ⟨[]⟩, [], {}⟩ : LoadSt) =
      .ok ⟨none, relsAcc ops ⟨[]⟩, rels, {}⟩ := by
    by_cases hre : rels = []
    · subst hre
      rw [if_pos rfl]
      rfl
    · rw [if_neg hre]
      rw [show loadPartProperties.go [⟨zipName packageRelName, .deflate, 0,
          .relsPart (rels.map Relationship.toXML)⟩]
          (⟨none, relsAcc ops ⟨[]⟩, [], {}⟩ : LoadSt) =
          (match loadOneProp ⟨zipName packageRelName, .deflate, 0,
            .relsPart (rels.map Relationship.toXML)⟩
            (⟨none, relsAcc ops ⟨[]⟩, [], {}⟩ : LoadSt) with
          | .error e => .error e
          | .ok st1 => loadPartProperties.go [] st1) from by
        rw [loadPartProperties.go]]
      rw [loadOneProp_pkgrels hrels]
      rfl
  unfold loadPartProperties
  rw [lpp_go_append, lpp_go_append, lpp_go_ops ops _ hops]
  dsimp only
  rw [hmid]
  dsimp only
  rw [show loadPartProperties.go [⟨zipName contentTypesName, .deflate, 0,
      .ctPart D.toXML⟩] (⟨none, relsAcc ops ⟨[]⟩, rels, {}⟩ : LoadSt) =
      (match loadOneProp ⟨zipName contentTypesName, .deflate, 0, .ctPart D.toXML⟩
        (⟨none, relsAcc ops ⟨[]⟩, rels, {}⟩ : LoadSt) with
      | .error e => .error e
      | .ok st1 => loadPartProperties.go [] st1) from by
    rw [loadPartProperties.go]]
  rw [loadOneProp_ct hdec]
  rfl

/-! ### The reader's second pass over a session archive -/

theorem lpkg_go_append (st : LoadSt) (ct : ContentTypes) (es1 : List Entry) :
    ∀ (es2 : List Entry) (r : ReaderSt),
      loadPackage.go st ct (es1 ++ es2) r =
        match loadPackage.go st ct es1 r with
        | .error e => .error e
        | .ok r1 => loadPackage.go st ct es2 r1 := by
  induction es1 with
  | nil => intro es2 r; rfl
  | cons e rest ih =>
    intro es2 r
    rw [List.cons_append]
    cases h : loadOnePart st ct e r with
    | error e' =>
      rw [show loadPackage.go st ct (e :: (rest ++ es2)) r = .error e' from by
        rw [loadPackage.go, h]]
      rw [show loadPackage.go st ct (e :: rest) r = .error e' from by
        rw [loadPackage.go, h]]
    | ok r1 =>
      rw [show loadPackage.go st ct (e :: (rest ++ es2)) r =
          loadPackage.go st ct (rest ++ es2) r1 from by
        rw [loadPackage.go, h]]
      rw [show loadPackage.go st ct (e :: rest) r =
          loadPackage.go st ct rest r1 from by
        rw [loadPackage.go, h]]
      exact ih es2 r1

theorem loadOnePart_skipRel {st : LoadSt} {ct : ContentTypes} {e : Entry} {r : ReaderSt}
    (h : isRelationshipURI ('/' :: e.name) = true) :
    loadOnePart st ct e r = .ok r := by
  unfold loadOnePart
  dsimp only
  rw [h]
  simp

theorem loadOnePart_skipCt {st : LoadSt} {ct : ContentTypes} {r : ReaderSt}
    {m : ZipMethod} {f : Nat} {cont : EntryContent} :
    loadOnePart st ct ⟨zipName contentTypesName, m, f, cont⟩ r = .ok r := by
  unfold loadOnePart
  dsimp only
  rw [show '/' :: zipName contentTypesName = contentTypesName from by decide]
  rw [show goEqualFold contentTypesName contentTypesName = true from by decide]
  simp

theorem loadOnePart_bodyStep {st : LoadSt} {ct : ContentTypes} {p : Part} {c : Int}
    {r : ReaderSt}
    (hWF : partWF p = true)
    (hfind : ct.findType p.Name = .ok p.ContentType)
    (hrel : st.rels.findRelationship p.Name = p.Relationships)
    (hprops : r.Properties = {})
    (hex : goToUpper (NormalizePartName p.Name) ∉ r.p.parts)
    (hcol : checkPrefixCollision r.p.parts (goToUpper (NormalizePartName p.Name)) = false) :
    loadOnePart st ct (bodyEntry (p, c)) r =
      .ok (ReaderSt.mk (r.Files ++ [p]) r.Relationships r.Properties
        ⟨r.p.parts ++ [goToUpper (NormalizePartName p.Name)],
          r.p.contentTypes.add (goToUpper (NormalizePartName p.Name)) p.ContentType⟩) := by
  obtain ⟨hn, hval, -, -, -⟩ := partWF_elim hWF
  obtain ⟨h1, h2, h3, h4, h5, h6, -, -⟩ := partNameWF_elim hn
  unfold loadOnePart
  rw [show '/' :: (bodyEntry (p, c)).name = p.Name from slash_cons_drop h1]
  dsimp only
  rw [h2, h3, h4]
  rw [if_neg (by decide)]
  rw [hprops]
  rw [show ResolveRelationship (gs "/") (CoreProperties.PartName {}) = gs "/" from by decide]
  rw [h5]
  rw [if_neg (by decide)]
  rw [h6, hfind]
  dsimp only
  rw [hrel]
  rw [pkgAdd_ok_of hval hex hcol]
  rw [h6]

theorem lpkg_go_ops (st : LoadSt) (ct : ContentTypes) (ops : List (Part × Int)) :
    ∀ r : ReaderSt,
      (∀ op ∈ ops, partWF op.1 = true) →
      (∀ op ∈ ops, ct.findType op.1.Name = .ok op.1.ContentType) →
      (∀ op ∈ ops, st.rels.findRelationship op.1.Name = op.1.Relationships) →
      r.Properties = {} →
      ((r.p.parts ++ partKeys ops).Pairwise (· ≠ ·)) →
      ((r.p.parts ++ partKeys ops).Pairwise (fun a b =>
        checkStringsPrefixCollision a b = false ∧
        checkStringsPrefixCollision b a = false)) →
      ∃ ct2, loadPackage.go st ct (ops.flatMap opEntries) r =
        .ok (ReaderSt.mk (r.Files ++ ops.map Prod.fst) r.Relationships r.Properties
          ⟨r.p.parts ++ partKeys ops, ct2⟩) := by
  induction ops with
  | nil =>
    intro r _ _ _ _ _ _
    refine ⟨r.p.contentTypes, ?_⟩
    show Except.ok r = _
    simp [partKeys]
  | cons op rest ih =>
    obtain ⟨p, c⟩ := op
    intro r hwf hfind hrel hprops hnd hcol
    have hkeyhead : partKeys ((p, c) :: rest) =
        goToUpper (NormalizePartName p.Name) :: partKeys rest := rfl
    rw [hkeyhead] at hnd hcol
    have hex : goToUpper (NormalizePartName p.Name) ∉ r.p.parts := by
      intro hmem
      rw [List.pairwise_append] at hnd
      exact hnd.2.2 _ hmem _ (List.mem_cons_self _ _) rfl
    have hcolf : checkPrefixCollision r.p.parts
        (goToUpper (NormalizePartName p.Name)) = false := by
      refine checkPrefixCollision_eq_false _ _ ?_
      intro k hk
      rw [List.pairwise_append] at hcol
      exact hcol.2.2 _ hk _ (List.mem_cons_self _ _)
    have hbody := @loadOnePart_bodyStep st ct p c r
      (hwf (p, c) (List.mem_cons_self _ _)) (hfind (p, c) (List.mem_cons_self _ _))
      (hrel (p, c) (List.mem_cons_self _ _)) hprops hex hcolf
    have hblock : loadPackage.go st ct (opEntries (p, c)) r =
        .ok (ReaderSt.mk (r.Files ++ [p]) r.Relationships r.Properties
          ⟨r.p.parts ++ [goToUpper (NormalizePartName p.Name)],
            r.p.contentTypes.add (goToUpper (NormalizePartName p.Name)) p.ContentType⟩) := by
      unfold opEntries
      by_cases hre : p.Relationships = []
      · show loadPackage.go st ct
          (bodyEntry (p, c) :: if p.Relationships = [] then [] else [sideEntry p]) r = _
        rw [if_pos hre]
        rw [show loadPackage.go st ct [bodyEntry (p, c)] r =
            (match loadOnePart st ct (bodyEntry (p, c)) r with
            | .error e => .error e
            | .ok r1 => loadPackage.go st ct [] r1) from by rw [loadPackage.go]]
        rw [hbody]
        rfl
      · show loadPackage.go st ct
          (bodyEntry (p, c) :: if p.Relationships = [] then [] else [sideEntry p]) r = _
        rw [if_neg hre]
        have hsd : sidecarNameWF p.Name = true :=
          (partWF_elim (hwf (p, c) (List.mem_cons_self _ _))).2.2.2.2.resolve_left hre
        obtain ⟨hh1, -, hh3, -, -, -, -, -⟩ := sidecarNameWF_elim hsd
        have hsideRel : isRelationshipURI ('/' :: (sideEntry p).name) = true := by
          rw [show '/' :: (sideEntry p).name = relNameFor p.Name from slash_cons_drop hh1]
          exact hh3
        rw [show loadPackage.go st ct [bodyEntry (p, c), sideEntry p] r =
            (match loadOnePart st ct (bodyEntry (p, c)) r with
            | .error e => .error e
            | .ok r1 => loadPackage.go st ct [sideEntry p] r1) from by rw [loadPackage.go]]
        rw [hbody]
        show loadPackage.go st ct [sideEntry p]
          (ReaderSt.mk (r.Files ++ [p]) r.Relationships r.Properties
            ⟨r.p.parts ++ [goToUpper (NormalizePartName p.Name)],
              r.p.contentTypes.add (goToUpper (NormalizePartName p.Name)) p.ContentType⟩) = _
        rw [show loadPackage.go st ct [sideEntry p]
            (ReaderSt.mk (r.Files ++ [p]) r.Relationships r.Properties
              ⟨r.p.parts ++ [goToUpper (NormalizePartName p.Name)],
                r.p.contentTypes.add (goToUpper (NormalizePartName p.Name)) p.ContentType⟩) =
            (match loadOnePart st ct (sideEntry p)
              (ReaderSt.mk (r.Files ++ [p]) r.Relationships r.Properties
                ⟨r.p.parts ++ [goToUpper (NormalizePartName p.Name)],
                  r.p.contentTypes.add (goToUpper (NormalizePartName p.Name)) p.ContentType⟩) with
            | .error e => .error e
            | .ok r1 => loadPackage.go st ct [] r1) from by rw [loadPackage.go]]
        rw [loadOnePart_skipRel hsideRel]
        rfl
    rw [List.flatMap_cons, lpkg_go_append, hblock]
    dsimp only
    obtain ⟨ct2, hrest⟩ := ih
      (ReaderSt.mk (r.Files ++ [p]) r.Relationships r.Properties
        ⟨r.p.parts ++ [goToUpper (NormalizePartName p.Name)],
          r.p.contentTypes.add (goToUpper (NormalizePartName p.Name)) p.ContentType⟩)
      (fun x hx => hwf x (List.mem_cons_of_mem _ hx))
      (fun x hx => hfind x (List.mem_cons_of_mem _ hx))
      (fun x hx => hrel x (List.mem_cons_of_mem _ hx))
      hprops
      (by
        dsimp only
        have heq : (r.p.parts ++ [goToUpper (NormalizePartName p.Name)]) ++ partKeys rest =
            r.p.parts ++ goToUpper (NormalizePartName p.Name) :: partKeys rest := by
          simp
        rw [heq]
        exact hnd)
      (by
        dsimp only
        have heq : (r.p.parts ++ [goToUpper (NormalizePartName p.Name)]) ++ partKeys rest =
            r.p.parts ++ goToUpper (NormalizePartName p.Name) :: partKeys rest := by
          simp
        rw [heq]
        exact hcol)
    refine ⟨ct2, ?_⟩
    rw [hrest]
    dsimp only
    rw [List.map_cons]
    have he1 : (r.Files ++ [p]) ++ rest.map Prod.fst = r.Files ++ p :: rest.map Prod.fst := by
      simp
    have he2 : (r.p.parts ++ [goToUpper (NormalizePartName p.Name)]) ++ partKeys rest =
        r.p.parts ++ goToUpper (NormalizePartName p.Name) :: partKeys rest := by
      simp
    rw [he1, he2]
    rfl

theorem relsAcc_list (ops : List (Part × Int)) :
    ∀ acc : List (GoStr × List Relationship),
      ((ops.map fun op => op.1.Name).Pairwise (· ≠ ·)) →
      (∀ op ∈ ops, ∀ kv ∈ acc, kv.1 ≠ op.1.Name) →
      (relsAcc ops ⟨acc⟩).rels = acc ++
        (ops.filter (fun op => !op.1.Relationships.isEmpty)).map
          (fun op => (op.1.Name, op.1.Relationships)) := by
  induction ops with
  | nil =>
    intro acc _ _
    simp [relsAcc]
  | cons op rest ih =>
    intro acc hnd hdisj
    rw [List.map_cons, List.pairwise_cons] at hnd
    by_cases hre : op.1.Relationships = []
    · rw [show relsAcc (op :: rest) ⟨acc⟩ = relsAcc rest ⟨acc⟩ from by
        unfold relsAcc
        rw [List.foldl_cons, if_pos hre]]
      rw [ih acc hnd.2 (fun x hx kv hkv => hdisj x (List.mem_cons_of_mem _ hx) kv hkv)]
      rw [List.filter_cons_of_neg (by simp [hre])]
    · rw [show relsAcc (op :: rest) ⟨acc⟩ =
          relsAcc rest ⟨(acc.filter (·.1 ≠ op.1.Name)) ++
            [(op.1.Name, op.1.Relationships)]⟩ from by
        unfold relsAcc RelationshipsPart.addRelationship
        rw [List.foldl_cons, if_neg hre]]
      have hfilt : acc.filter (·.1 ≠ op.1.Name) = acc := by
        rw [List.filter_eq_self]
        intro kv hkv
        simpa using hdisj op (List.mem_cons_self _ _) kv hkv
      rw [hfilt]
      rw [ih (acc ++ [(op.1.Name, op.1.Relationships)]) hnd.2 ?disj]
      · rw [List.filter_cons_of_pos (by simp [hre])]
        simp
      case disj =>
        intro x hx kv hkv
        rw [List.mem_append] at hkv
        cases hkv with
        | inl hin => exact hdisj x (List.mem_cons_of_mem _ hx) kv hin
        | inr hin =>
          rw [List.mem_singleton] at hin
          subst hin
          exact hnd.1 _ (List.mem_map_of_mem _ hx)

theorem assocLookup (ops : List (Part × Int)) (p : Part) (c : Int) :
    ((ops.map fun op => op.1.Name).Pairwise (· ≠ ·)) → (p, c) ∈ ops →
      (((((ops.filter (fun op => !op.1.Relationships.isEmpty)).map
        (fun op => (op.1.Name, op.1.Relationships))).find?
          (·.1 = p.Name)).map (·.2)).getD []) = p.Relationships := by
  induction ops with
  | nil =>
    intro _ hmem
    cases hmem
  | cons op rest ih =>
    intro hnd hmem
    rw [List.map_cons, List.pairwise_cons] at hnd
    rw [List.mem_cons] at hmem
    cases hmem with
    | inl he =>
      have hop1 : op.1 = p := by rw [← he]
      by_cases hre : p.Relationships = []
      · rw [List.filter_cons_of_neg (by simp [hop1, hre])]
        rw [List.find?_eq_none.2 ?nohit]
        · rw [hre]
          rfl
        case nohit =>
          intro kv hkv
          rw [List.mem_map] at hkv
          obtain ⟨x, hx, hxkv⟩ := hkv
          rw [List.mem_filter] at hx
          simp only [decide_eq_true_eq]
          rw [← hxkv]
          dsimp only
          intro hcon
          exact hnd.1 _ (List.mem_map_of_mem _ hx.1) (by rw [hop1, hcon])
      · rw [List.filter_cons_of_pos (by simp [hop1, hre])]
        rw [List.map_cons]
        rw [List.find?_cons_of_pos _ (by simp [hop1])]
        rw [hop1]
        rfl
    | inr hmem2 =>
      have hne : op.1.Name ≠ p.Name :=
        hnd.1 _ (List.mem_map_of_mem _ hmem2)
      by_cases hre : op.1.Relationships = []
      · rw [List.filter_cons_of_neg (by simp [hre])]
        exact ih hnd.2 hmem2
      · rw [List.filter_cons_of_pos (by simp [hre])]
        rw [List.map_cons]
        rw [List.find?_cons_of_neg _ (by simp [hne])]
        exact ih hnd.2 hmem2

theorem findRelationship_session (ops : List (Part × Int))
    (hnd : (ops.map fun op => op.1.Name).Pairwise (· ≠ ·)) :
    ∀ op ∈ ops, (relsAcc ops ⟨[]⟩).findRelationship op.1.Name = op.1.Relationships := by
  intro op hop
  unfold RelationshipsPart.findRelationship
  rw [relsAcc_list ops [] hnd (by simp), List.nil_append]
  exact assocLookup ops op.1 op.2 hnd (by simpa using hop)

theorem mapFst_sublist_flatMap (ops : List (Part × Int)) :
    List.Sublist (ops.map Prod.fst) (ops.flatMap opParts) := by
  induction ops with
  | nil => simp
  | cons op rest ih =>
    rw [List.map_cons, List.flatMap_cons]
    rw [show opParts op ++ rest.flatMap opParts =
        op.1 :: ((if op.1.Relationships = [] then [] else [sidecarPart op.1]) ++
          rest.flatMap opParts) from rfl]
    exact (ih.trans (List.sublist_append_right _ _)).cons₂ _

theorem partKeys_sublist (ops : List (Part × Int)) (rels : List Relationship) :
    List.Sublist (partKeys ops) (sessionKeys ops rels) := by
  have h1 : partKeys ops = (ops.map Prod.fst).map
      (fun q : Part => goToUpper (NormalizePartName q.Name)) := by
    unfold partKeys
    rw [List.map_map]
    rfl
  have h2 : sessionKeys ops rels = (sessionParts ops rels).map
      (fun q : Part => goToUpper (NormalizePartName q.Name)) := by
    unfold sessionKeys sessionAdds addsOf
    rw [List.map_map]
    rfl
  rw [h1, h2]
  refine List.Sublist.map _ ?_
  unfold sessionParts
  exact (mapFst_sublist_flatMap ops).trans
    ((List.sublist_append_left _ _).trans (List.sublist_append_left _ _))

theorem partNames_pairwise (ops : List (Part × Int)) (rels : List Relationship)
    (hkeys : (sessionKeys ops rels).Pairwise (· ≠ ·)) :
    (ops.map fun op => op.1.Name).Pairwise (· ≠ ·) := by
  have hp : (partKeys ops).Pairwise (· ≠ ·) :=
    hkeys.sublist (partKeys_sublist ops rels)
  unfold partKeys at hp
  rw [List.pairwise_map] at hp
  rw [List.pairwise_map]
  refine hp.imp ?_
  intro a b hab hcon
  exact hab (by rw [hcon])

theorem sessionAdds_addWF (ops : List (Part × Int)) (rels : List Relationship)
    (hops : ∀ op ∈ ops, partWF op.1 = true) :
    ∀ kt ∈ sessionAdds ops rels, addWF kt = true := by
  intro kt hkt
  unfold sessionAdds addsOf at hkt
  rw [List.mem_map] at hkt
  obtain ⟨q, hq, hkq⟩ := hkt
  subst hkq
  unfold sessionParts at hq
  rw [List.mem_append, List.mem_append] at hq
  rcases hq with (hq | hq) | hq
  · rw [List.mem_flatMap] at hq
    obtain ⟨op, hop, hqop⟩ := hq
    obtain ⟨hn, hval, hcanon, hrOK, hside⟩ := partWF_elim (hops op hop)
    rw [show opParts op = op.1 ::
        (if op.1.Relationships = [] then [] else [sidecarPart op.1]) from rfl,
      List.mem_cons] at hqop
    cases hqop with
    | inl he =>
      subst he
      obtain ⟨-, -, -, -, -, hnorm, hkey, -⟩ := partNameWF_elim hn
      unfold addWF
      rw [Bool.and_eq_true]
      constructor
      · dsimp only
        rw [hnorm]
        exact hkey
      · simpa using hcanon
    | inr he =>
      by_cases hre : op.1.Relationships = []
      · rw [if_pos hre] at he
        cases he
      · rw [if_neg hre] at he
        rw [List.mem_singleton] at he
        subst he
        have hsd := hside.resolve_left hre
        obtain ⟨-, -, -, -, -, hnorm, hkey, -⟩ := sidecarNameWF_elim hsd
        unfold addWF
        rw [Bool.and_eq_true]
        constructor
        · show keyWF (goToUpper (NormalizePartName (sidecarPart op.1).Name)) = true
          rw [show (sidecarPart op.1).Name = relNameFor op.1.Name from rfl, hnorm]
          exact hkey
        · show decide (mimeCanon (sidecarPart op.1).ContentType =
            (sidecarPart op.1).ContentType) = true
          rw [show (sidecarPart op.1).ContentType = relationshipContentType from rfl]
          decide
  · by_cases hre : rels = []
    · rw [if_pos hre] at hq
      cases hq
    · rw [if_neg hre] at hq
      rw [List.mem_singleton] at hq
      subst hq
      unfold addWF
      decide
  · rw [List.mem_singleton] at hq
    subst hq
    unfold addWF
    decide

theorem session_findType (ops : List (Part × Int)) (rels : List Relationship)
    (hops : ∀ op ∈ ops, partWF op.1 = true)
    (hkeys : (sessionKeys ops rels).Pairwise (· ≠ ·)) :
    ∀ op ∈ ops, (ctFold (sessionAdds ops rels) ⟨[], []⟩).findType op.1.Name =
      .ok op.1.ContentType := by
  have hinv := ctInv_fold (sessionAdds ops rels) [] ⟨[], []⟩ ctInv_empty
    (sessionAdds_addWF ops rels hops) (by simpa using hkeys)
  rw [List.nil_append] at hinv
  obtain ⟨-, -, -, -, hass⟩ := hinv
  intro op hop
  obtain ⟨hn, -, hcanon, -, -⟩ := partWF_elim (hops op hop)
  obtain ⟨-, -, -, -, -, hnorm, -, hcoh⟩ := partNameWF_elim hn
  have hmem : (goToUpper (NormalizePartName op.1.Name), op.1.ContentType) ∈
      sessionAdds ops rels := by
    unfold sessionAdds addsOf
    refine List.mem_map.2 ⟨op.1, ?_, rfl⟩
    unfold sessionParts
    refine List.mem_append_left _ (List.mem_append_left _ ?_)
    rw [List.mem_flatMap]
    refine ⟨op, hop, ?_⟩
    rw [show opParts op = op.1 ::
      (if op.1.Relationships = [] then [] else [sidecarPart op.1]) from rfl]
    exact List.mem_cons_self _ _
  have h1 := hass _ hmem
  rw [show ((goToUpper (NormalizePartName op.1.Name), op.1.ContentType) :
    GoStr × GoStr).1 = goToUpper (NormalizePartName op.1.Name) from rfl] at h1
  rw [hnorm] at h1
  exact findType_of_assigns h1 hcoh

theorem session_decode (ops : List (Part × Int)) (rels : List Relationship)
    (hops : ∀ op ∈ ops, partWF op.1 = true)
    (hkeys : (sessionKeys ops rels).Pairwise (· ≠ ·)) :
    decodeContentTypes (ctFold (sessionAdds ops rels) ⟨[], []⟩).toXML =
      .ok (ctFold (sessionAdds ops rels) ⟨[], []⟩) := by
  have hinv := ctInv_fold (sessionAdds ops rels) [] ⟨[], []⟩ ctInv_empty
    (sessionAdds_addWF ops rels hops) (by simpa using hkeys)
  rw [List.nil_append] at hinv
  obtain ⟨hd, hdnd, ho, hond, -⟩ := hinv
  refine decodeContentTypes_toXML hd hdnd ?_ hond
  intro kv hkv
  obtain ⟨kt, hkt, hfst⟩ := List.mem_map.1 (ho kv hkv)
  have hwf := sessionAdds_addWF ops rels hops kt hkt
  have hkey : keyWF kt.1 = true := by
    unfold addWF at hwf
    rw [Bool.and_eq_true] at hwf
    exact hwf.1
  obtain ⟨hup, hnorm2, -, -⟩ := keyWF_elim hkey
  rw [← hfst, hnorm2, hup]

theorem lpkg_go_single (st : LoadSt) (ct : ContentTypes) (e : Entry) (r : ReaderSt)
    (h : loadOnePart st ct e r = .ok r) : loadPackage.go st ct [e] r = .ok r := by
  rw [show loadPackage.go st ct [e] r =
      (match loadOnePart st ct e r with
      | .error e' => .error e'
      | .ok r1 => loadPackage.go st ct [] r1) from by rw [loadPackage.go]]
  rw [h]
  rfl

theorem lpkg_go_pkgrels (st : LoadSt) (ct : ContentTypes) (rels : List Relationship)
    (r : ReaderSt) :
    loadPackage.go st ct (if rels = [] then []
      else [⟨zipName packageRelName, .deflate, 0,
        .relsPart (rels.map Relationship.toXML)⟩]) r = .ok r := by
  by_cases hre : rels = []
  · rw [if_pos hre]
    rfl
  · rw [if_neg hre]
    refine lpkg_go_single st ct _ r ?_
    refine loadOnePart_skipRel ?_
    show isRelationshipURI ('/' :: zipName packageRelName) = true
    decide

theorem lpkg_go_ct (st : LoadSt) (ct : ContentTypes) (xs : List CTXML) (r : ReaderSt) :
    loadPackage.go st ct [⟨zipName contentTypesName, .deflate, 0, .ctPart xs⟩] r =
      .ok r :=
  lpkg_go_single st ct _ r loadOnePart_skipCt

theorem session_validate (ops : List (Part × Int)) (rels : List Relationship)
    (hops : ∀ op ∈ ops, partWF op.1 = true) :
    ∀ q ∈ sessionParts ops rels, q.validate = none := by
  intro q hq
  unfold sessionParts at hq
  rw [List.mem_append, List.mem_append] at hq
  rcases hq with (hq | hq) | hq
  · rw [List.mem_flatMap] at hq
    obtain ⟨op, hop, hqop⟩ := hq
    obtain ⟨-, hval2, -, -, hside⟩ := partWF_elim (hops op hop)
    rw [show opParts op = op.1 ::
        (if op.1.Relationships = [] then [] else [sidecarPart op.1]) from rfl,
      List.mem_cons] at hqop
    cases hqop with
    | inl he =>
      subst he
      exact hval2
    | inr he =>
      by_cases hre : op.1.Relationships = []
      · rw [if_pos hre] at he
        cases he
      · rw [if_neg hre] at he
        rw [List.mem_singleton] at he
        subst he
        exact (sidecarNameWF_elim (hside.resolve_left hre)).2.2.2.2.2.2.2
  · by_cases hre : rels = []
    · rw [if_pos hre] at hq
      cases hq
    · rw [if_neg hre] at hq
      rw [List.mem_singleton] at hq
      subst hq
      decide
  · rw [List.mem_singleton] at hq
    subst hq
    decide

/-- **C1** (amended): the restricted round trip.  For a session whose parts
satisfy the decidable per-part checklist `partWF`, whose package-level
relationships satisfy `pkgRelWF`, whose content-types keys are pairwise
distinct and pairwise free of segment-prefix collisions, and whose core
properties are left unset, reading the archive produced by a successful run
of CreatePart calls followed by Close yields exactly the written parts (in
order, each with its relationships), the written package relationships, empty
core properties, and the writer's final content-types dictionary. -/
theorem C1_round_trip {gen : Nat → GoStr} {rels : List Relationship}
    {ops : List (Part × Int)} {wf : WriterSt}
    (h : runSession (mkWriter gen {} rels) ops = some wf)
    (hops : ∀ op ∈ ops, partWF op.1 = true)
    (hrels : ∀ r ∈ rels, pkgRelWF r = true)
    (hkeys : (sessionKeys ops rels).Pairwise (· ≠ ·))
    (hcoll : (sessionKeys ops rels).Pairwise (fun a b =>
      checkStringsPrefixCollision a b = false ∧
      checkStringsPrefixCollision b a = false)) :
    newReader wf.entries =
      .ok (ReaderSt.mk (ops.map Prod.fst) rels {}
        ⟨partKeys ops, wf.p.contentTypes⟩) := by
  have hIDsOps : ∀ op ∈ ops, ∀ r ∈ op.1.Relationships, r.ID ≠ [] := by
    intro op hop r hr
    exact (relOK_elim ((partWF_elim (hops op hop)).2.2.2.1 r hr)).1
  have hIDsRels : ∀ r ∈ rels, r.ID ≠ [] := by
    intro r hr
    exact (relOK_elim (pkgRelWF_elim (hrels r hr)).1).1
  have hs := runSession_ok_spec h
  have hwfE : wf.entries =
      (closeSpec gen (runSpec gen (mkWriter gen {} rels).spec ops) {} rels).1.entries :=
    congrArg (fun x : RunSpec × List Relationship => x.1.entries) hs
  have hwfP : wf.p =
      (closeSpec gen (runSpec gen (mkWriter gen {} rels).spec ops) {} rels).1.p :=
    congrArg (fun x : RunSpec × List Relationship => x.1.p) hs
  obtain ⟨hrE, hrC, hrP⟩ := runSpec_explicit gen ops hIDsOps (mkWriter gen {} rels).spec
    (by
      intro lp hlp
      rw [show (mkWriter gen {} rels).spec.lastOpt = none from rfl] at hlp
      cases hlp)
  obtain ⟨hcl1, hclP, hclE⟩ := closeSpec_explicit gen
    (runSpec gen (mkWriter gen {} rels).spec ops) rels hIDsRels
  have hPfold :
      (closeSpec gen (runSpec gen (mkWriter gen {} rels).spec ops) {} rels).1.p =
        pkgFold (sessionParts ops rels) newPackage := by
    rw [hclP, hrP]
    rw [show pendParts (mkWriter gen {} rels).spec.lastOpt = ([] : List Part) from rfl,
      List.nil_append]
    rw [← pkgFold_append]
    rw [show (mkWriter gen {} rels).spec.p = newPackage from rfl]
    unfold sessionParts
    rw [List.append_assoc]
  have hPexp : pkgFold (sessionParts ops rels) newPackage =
      ⟨sessionKeys ops rels, ctFold (sessionAdds ops rels) ⟨[], []⟩⟩ := by
    rw [pkgFold_explicit (sessionParts ops rels) newPackage
      (session_validate ops rels hops) hkeys hcoll]
    rfl
  have hwfct : wf.p.contentTypes = ctFold (sessionAdds ops rels) ⟨[], []⟩ := by
    rw [hwfP, hPfold, hPexp]
  have hdec := session_decode ops rels hops hkeys
  have hE : wf.entries =
      ops.flatMap opEntries ++
        (if rels = [] then [] else [⟨zipName packageRelName, .deflate, 0,
          .relsPart (rels.map Relationship.toXML)⟩]) ++
        [⟨zipName contentTypesName, .deflate, 0,
          .ctPart (ctFold (sessionAdds ops rels) ⟨[], []⟩).toXML⟩] := by
    rw [hwfE, hclE, hPfold, hPexp]
    rw [hrE]
    rw [show (mkWriter gen {} rels).spec.entries = ([] : List Entry) from rfl,
      show pendEntries (mkWriter gen {} rels).spec.lastOpt = ([] : List Entry) from rfl,
      List.nil_append, List.nil_append]
  have hnames : (ops.map fun op => op.1.Name).Pairwise (· ≠ ·) :=
    partNames_pairwise ops rels hkeys
  have hlpp := loadPartProperties_session ops rels
    (ctFold (sessionAdds ops rels) ⟨[], []⟩) hops hrels hdec
  have hpkeys : (partKeys ops).Pairwise (· ≠ ·) :=
    hkeys.sublist (partKeys_sublist ops rels)
  have hpcol : (partKeys ops).Pairwise (fun a b =>
      checkStringsPrefixCollision a b = false ∧
      checkStringsPrefixCollision b a = false) :=
    hcoll.sublist (partKeys_sublist ops rels)
  rw [hwfct, hE]
  unfold newReader loadPackage
  rw [hlpp]
  dsimp only [Option.getD]
  rw [lpkg_go_append, lpkg_go_append]
  obtain ⟨ct2, hgo⟩ := lpkg_go_ops ⟨some (ctFold (sessionAdds ops rels) ⟨[], []⟩),
      relsAcc ops ⟨[]⟩, rels, {}⟩ (ctFold (sessionAdds ops rels) ⟨[], []⟩) ops
    (ReaderSt.mk [] rels {} newPackage) hops
    (session_findType ops rels hops hkeys)
    (fun op hop => findRelationship_session ops hnames op hop)
    rfl hpkeys hpcol
  rw [hgo]
  dsimp only
  rw [lpkg_go_pkgrels]
  dsimp only
  rw [lpkg_go_ct]
  rfl

/-- **C1** counterexample to the unrestricted round-trip claim: a
package-level internal relationship whose target lacks the leading slash is
kept verbatim in the writer (and its ID is caller-provided, so the claim's
generated-ID escape does not apply), but `toXML` prefixes `/` to the emitted
Target attribute, so the reader returns a relationship with a different
target. -/
theorem C1_counterexample :
    c1xwf.Relationships = [c1xrel] ∧
    (newReader c1xwf.entries).map ReaderSt.Relationships =
      .ok [⟨gs "rId1", gs "t", gs "/a.xml", .Internal⟩] ∧
    c1xrel.TargetURI ≠ gs "/a.xml" := by
  refine ⟨by rfl, by rfl, by decide⟩

/-- Witness for the restricted round trip: a concrete session with a part in
a subdirectory carrying one relationship, a second plain part, and one
package-level relationship. -/
theorem C1_witness :
    runSession (mkWriter genFixed {} c1rels) c1ops = some c1wf ∧
    newReader c1wf.entries =
      .ok (ReaderSt.mk (c1ops.map Prod.fst) c1rels {}
        ⟨partKeys c1ops, c1wf.p.contentTypes⟩) :=
  ⟨by rfl, @C1_round_trip genFixed c1rels c1ops c1wf (by rfl) (by decide) (by decide)
    (by decide) (by decide)⟩

